import Mathlib

/-!
Verification development for the summary-to-speech service
(`src/app.js` and its revision variants).

The central component is `parseStructuredScript`, which decodes the chat
model's free-text output into an ordered list of sentence/action pairs.
Strings are embedded as `List Char`; JavaScript regex matching on the
concrete patterns used by the source (`/"sentence"\s*:\s*"([^"]*)"/i`,
`/END_SENTENCE\s*/i`, `/(?<=[.!?])\s+/`) is embedded as explicit scanning
functions.  Case-insensitivity is modelled by `Char.toLower`, which agrees
with the JavaScript canonicalisation on the ASCII patterns the source uses.
-/

namespace Confluencer

/-- Whitespace class of JavaScript regex `\s` and of `String.prototype.trim`. -/
def isJsWs (c : Char) : Bool :=
  c = ' ' || c = '\t' || c = '\n' || c = '\r' ||
  c.toNat = 11 || c.toNat = 12 || c.toNat = 0xa0 || c.toNat = 0x1680 ||
  (0x2000 ≤ c.toNat && c.toNat ≤ 0x200a) ||
  c.toNat = 0x2028 || c.toNat = 0x2029 || c.toNat = 0x202f ||
  c.toNat = 0x205f || c.toNat = 0x3000 || c.toNat = 0xfeff

/-- Dropping a prefix by a predicate never lengthens a list. -/
theorem dropWhile_length_le {α : Type} (p : α → Bool) :
    (l : List α) → (l.dropWhile p).length ≤ l.length
  | [] => Nat.le_refl _
  | x :: xs => by
    rw [List.dropWhile_cons]
    split
    · exact Nat.le_trans (dropWhile_length_le p xs) (Nat.le_succ _)
    · exact Nat.le_refl _

/-- Lower-casing a character sequence (ASCII case-insensitive comparison). -/
def lowerStr (s : List Char) : List Char := s.map Char.toLower

/-- Case-insensitive "starts with" test, as used by the `/END_SENTENCE\s*/i` split. -/
def startsWithCI (pat s : List Char) : Bool :=
  (lowerStr pat).isPrefixOf (lowerStr s)

/-- Occurrence of `pat` as a contiguous subsequence of `s` (case-sensitive). -/
def containsSeq (pat : List Char) : List Char → Bool
  | [] => pat.isPrefixOf []
  | c :: cs => pat.isPrefixOf (c :: cs) || containsSeq pat cs

/-- Case-insensitive occurrence test. -/
def containsCI (pat s : List Char) : Bool :=
  containsSeq (lowerStr pat) (lowerStr s)

/-- The per-block delimiter literal of the model-output protocol. -/
def endSentenceTok : List Char := "END_SENTENCE".data

/-- The terminal delimiter literal of the model-output protocol. -/
def endSummaryTok : List Char := "END_SUMMARY".data

/-- Embedding of `script.trim()`. -/
def trimChars (s : List Char) : List Char :=
  ((s.dropWhile isJsWs).reverse.dropWhile isJsWs).reverse

/-- Embedding of `text.substring(0, text.indexOf('END_SUMMARY'))` (whole text
when the terminal delimiter does not occur): keep everything strictly before
the first (case-sensitive) occurrence of `END_SUMMARY`. -/
def truncateAtEndSummary : List Char → List Char
  | [] => []
  | c :: cs =>
    if endSummaryTok.isPrefixOf (c :: cs) then []
    else c :: truncateAtEndSummary cs

/-- Embedding of `text.split(/END_SENTENCE\s*/i)` as a character-level state
machine (structural recursion, so concrete inputs evaluate in the kernel).
`acc` holds the current fragment reversed.  When the case-insensitive literal
`END_SENTENCE` starts at the current position, the fragment is emitted, the
remaining 11 characters of the literal are consumed through the `discard`
counter, and the greedy `\s*` run after it is consumed in the `wsSkip` state. -/
def splitDelimGo (acc : List Char) (discard : Nat) (wsSkip : Bool) :
    List Char → List (List Char)
  | [] => [acc.reverse]
  | c :: cs =>
    match discard with
    | k + 1 => splitDelimGo acc k (decide (k = 0)) cs
    | 0 =>
      if wsSkip && isJsWs c then splitDelimGo acc 0 true cs
      else if startsWithCI endSentenceTok (c :: cs) then
        acc.reverse :: splitDelimGo [] 11 false cs
      else splitDelimGo (c :: acc) 0 false cs

/-- The block split of `parseStructuredScript`:
`text.split(/END_SENTENCE\s*/i)` before trimming and filtering. -/
def splitDelim (text : List Char) : List (List Char) :=
  splitDelimGo [] 0 false text

/-- Sentence-ending punctuation of the fallback split. -/
def sentEndPunct (c : Char) : Bool := c = '.' || c = '!' || c = '?'

/-- Embedding of `text.split(/(?<=[.!?])\s+/)` as a character-level state
machine: cut at every maximal whitespace run immediately preceded by `.`, `!`
or `?`.  `acc` holds the current fragment reversed (so its head is the
previous character); `wsSkip` consumes the greedy `\s+` run after a cut. -/
def splitFallbackGo (acc : List Char) (wsSkip : Bool) :
    List Char → List (List Char)
  | [] => [acc.reverse]
  | c :: cs =>
    if wsSkip && isJsWs c then splitFallbackGo acc true cs
    else if (match acc with | p :: _ => sentEndPunct p | [] => false) && isJsWs c then
      acc.reverse :: splitFallbackGo [] true cs
    else splitFallbackGo (c :: acc) false cs

/-- The fallback split of `parseStructuredScript`:
`text.split(/(?<=[.!?])\s+/)` before trimming and filtering. -/
def splitFallback (text : List Char) : List (List Char) :=
  splitFallbackGo [] false text

/-- Embedding of `expect a literal character` inside the regex scan. -/
def expectChar (c : Char) : List Char → Option (List Char)
  | [] => none
  | d :: ds => if d = c then some ds else none

/-- Embedding of matching a literal label case-insensitively. -/
def expectCI : List Char → List Char → Option (List Char)
  | [], s => some s
  | _ :: _, [] => none
  | p :: ps, c :: cs => if c.toLower = p.toLower then expectCI ps cs else none

/-- Embedding of the greedy `\s*` inside the field regex. -/
def skipWs (s : List Char) : List Char := s.dropWhile isJsWs

/-- Embedding of `[^"]*` followed by the closing `"`: capture every character
up to the first double quote, failing when no closing quote exists. -/
def captureString : List Char → Option (List Char)
  | [] => none
  | c :: cs => if c = '"' then some [] else (captureString cs).map (fun v => c :: v)

/-- Attempt of the regex `/"label"\s*:\s*"([^"]*)"/i` anchored at the current
position; returns the captured group on success. -/
def matchFieldAt (label : List Char) (s : List Char) : Option (List Char) :=
  (expectChar '"' s).bind fun s1 =>
  (expectCI label s1).bind fun s2 =>
  (expectChar '"' s2).bind fun s3 =>
  (expectChar ':' (skipWs s3)).bind fun s4 =>
  (expectChar '"' (skipWs s4)).bind fun s5 =>
  captureString s5

/-- Embedding of `part.match(/"label"\s*:\s*"([^"]*)"/i)`: first (leftmost)
match of the field pattern, returning capture group 1. -/
def findField (label : List Char) : List Char → Option (List Char)
  | [] => none
  | c :: cs =>
    match matchFieldAt label (c :: cs) with
    | some v => some v
    | none => findField label cs

/-- The label literal of the sentence field regex. -/
def sentenceLabel : List Char := ['s', 'e', 'n', 't', 'e', 'n', 'c', 'e']

/-- The label literal of the action field regex. -/
def actionLabel : List Char := ['a', 'c', 't', 'i', 'o', 'n']

/-- One parsed entry: `{ sentence, action }` with `action : string | null`. -/
structure ScriptEntry where
  sentence : List Char
  action : Option (List Char)
deriving Repr, DecidableEq

/-- Per-candidate-block extraction step of `parseStructuredScript` in
`src/app.js` (lines 171-180): an entry is produced only when the sentence
pattern matches with a non-empty captured value; the action capture is kept
as matched (`null` when the pattern does not match). -/
def extractEntry (part : List Char) : Option ScriptEntry :=
  match findField sentenceLabel part with
  | some s => if s.isEmpty then none else some ⟨s, findField actionLabel part⟩
  | none => none

/-- Candidate blocks: split on the per-block delimiter, trim each piece,
discard empty pieces (`.split(/END_SENTENCE\s*/i).map(trim).filter(Boolean)`). -/
def splitParts (text : List Char) : List (List Char) :=
  ((splitDelim text).map trimChars).filter (fun p => !p.isEmpty)

/-- The structured-extraction result of `parseStructuredScript` (the `result`
array before the fallback test). -/
def structuredEntries (text : List Char) : List ScriptEntry :=
  (splitParts text).filterMap extractEntry

/-- The fallback result of `parseStructuredScript` in `src/app.js`: split the
(already trimmed and delimiter-stripped) text on whitespace following
sentence-ending punctuation, trim, discard empties, no actions. -/
def fallbackEntries (text : List Char) : List ScriptEntry :=
  (((splitFallback text).map trimChars).filter (fun p => !p.isEmpty)).map
    (fun s => ⟨s, none⟩)

/-- Embedding of `parseStructuredScript` from `src/app.js` (lines 164-187):
trim, cut at the first `END_SUMMARY`, split into blocks, extract sentence and
action fields per block, and fall back to naive punctuation splitting when no
block produced an entry.  The guard `!script` of the source is the emptiness
test; non-string inputs are handled by `parseStructuredScriptJs` below. -/
def parseStructuredScript (script : String) : List ScriptEntry :=
  if script.data = [] then []
  else if structuredEntries (truncateAtEndSummary (trimChars script.data)) = [] then
    fallbackEntries (truncateAtEndSummary (trimChars script.data))
  else
    structuredEntries (truncateAtEndSummary (trimChars script.data))

/-- A JavaScript value as far as the parser's type guard can distinguish it:
a string, or any non-string value. -/
inductive JsValue where
  | vstr (s : String)
  | nonString
deriving Repr, DecidableEq

/-- Embedding of `parseStructuredScript` including the
`typeof script !== 'string'` guard: every non-string input yields `[]`. -/
def parseStructuredScriptJs : JsValue → List ScriptEntry
  | .vstr s => parseStructuredScript s
  | .nonString => []

/-!  Rendering of well-formed model outputs, used to state the claims about
properly delimited block sequences.  A block is laid out exactly as the
summarisation prompt requests: a `"sentence"` field, an optional `"action"`
field and the per-block delimiter, each separated by one space. -/

/-- The fixed markup opening a sentence field: `"sentence": "`. -/
def sentenceKey : List Char :=
  ['"', 's', 'e', 'n', 't', 'e', 'n', 'c', 'e', '"', ':', ' ', '"']

/-- The fixed markup opening an action field: `"action": "`. -/
def actionKey : List Char :=
  ['"', 'a', 'c', 't', 'i', 'o', 'n', '"', ':', ' ', '"']

/-- The text of one block before its `END_SENTENCE ` delimiter:
`"sentence": "<s>" ` and optionally `"action": "<a>" `. -/
def blockContent (e : ScriptEntry) : List Char :=
  sentenceKey ++ e.sentence ++ ['"', ' '] ++
  (match e.action with
   | some a => actionKey ++ a ++ ['"', ' ']
   | none => [])

/-- One rendered block, terminated by the per-block delimiter and a space. -/
def renderBlock (e : ScriptEntry) : List Char :=
  blockContent e ++ endSentenceTok ++ [' ']

/-- A whole rendered model output: the blocks in order, then `END_SUMMARY`. -/
def renderScript (bs : List ScriptEntry) : List Char :=
  (bs.map renderBlock).flatten ++ endSummaryTok

/-- The trimmed candidate block the splitter hands to field extraction. -/
def blockContentTrim (e : ScriptEntry) : List Char :=
  sentenceKey ++ e.sentence ++ ['"'] ++
  (match e.action with
   | some a => ' ' :: actionKey ++ a ++ ['"']
   | none => [])

/-- A field value is safe when it cannot interfere with the surrounding
markup: it contains no double quote (the value is a quoted string), no
case-insensitive occurrence of the per-block delimiter and no occurrence of
the terminal delimiter. -/
def valueSafe (v : List Char) : Prop :=
  '"' ∉ v ∧ containsCI endSentenceTok v = false ∧ containsSeq endSummaryTok v = false

/-- A well-formed block: safe sentence value, and safe action value when the
optional action field is present. -/
def entryWF (e : ScriptEntry) : Prop :=
  valueSafe e.sentence ∧ ∀ a, e.action = some a → valueSafe a

instance (v : List Char) : Decidable (valueSafe v) := by
  unfold valueSafe; infer_instance

instance (e : ScriptEntry) : Decidable (entryWF e) := by
  unfold entryWF
  have : Decidable (∀ a, e.action = some a → valueSafe a) := by
    match e.action with
    | some a =>
      exact decidable_of_iff (valueSafe a) (by simp)
    | none => exact isTrue (by simp)
  infer_instance

/-!  Model of the `POST /summaries` handler of `src/app.js` (lines 205-296).
External effects are abstracted by an oracle: the outcome of the URL fetch,
the chat completion, each per-sentence TTS synthesis and storage upload, the
generated filenames, and the database insert.  The outcome registers the
response sent, the Story records persisted by the request and which
downstream calls were made. -/

/-- One persisted story section: `{ text, key, action? }` (the legacy `audio`
field is kept for the read path, where old records may carry it). -/
structure SectionDoc where
  text : List Char
  key : Option String
  audio : Option String
  action : Option (List Char)
deriving Repr, DecidableEq

/-- One persisted Story record of the single-persona service. -/
structure StoryDoc where
  title : List Char
  sections : List SectionDoc
deriving Repr, DecidableEq

/-- Responses the handler can produce.  `invalidInput` and `urlError` are the
two 400 responses, `summaryFailed` and `emptyParse` the two 502 responses,
`internalError` the catch-all 500. -/
inductive HttpResp where
  | invalidInput
  | urlError
  | summaryFailed
  | emptyParse
  | internalError
  | created (st : StoryDoc)
deriving Repr, DecidableEq

/-- Oracle for the external effects of one `POST /summaries` request.
`none` results model a rejected promise (an exception at that call). -/
structure PostOracle where
  fetchResult : Option String
  chatResult : Option String
  ttsOk : Nat → Bool
  uploadOk : Nat → Bool
  keyOf : Nat → String
  createOk : Bool

/-- Embedding of `generateSummary`: the chat call's trimmed message content,
with every failure (exception, missing content) caught and turned into `''`. -/
def generateSummary (o : PostOracle) : String :=
  match o.chatResult with
  | some t => String.mk (trimChars t.data)
  | none => ""

/-- Request body fields as the handler's type guards can distinguish them:
`nonString` models an absent, `null` or otherwise non-string field. -/
structure ReqBody where
  text : JsValue
  url : JsValue
deriving Repr, DecidableEq

/-- The guard `!x || typeof x !== 'string' || !x.trim()` of the handler. -/
def jsStrInvalid : JsValue → Bool
  | .vstr s => (trimChars s.data).isEmpty
  | .nonString => true

/-- JavaScript falsiness of a body field (`''` and non-string absent values). -/
def jsFalsy : JsValue → Bool
  | .vstr s => s.data.isEmpty
  | .nonString => true

/-- The section object pushed for the i-th parsed entry: `{ text, key }` plus
`action` only when the parsed action is truthy (non-null and non-empty). -/
def mkSection (o : PostOracle) (i : Nat) (e : ScriptEntry) : SectionDoc :=
  ⟨e.sentence, some (o.keyOf i),
   none,
   match e.action with
   | some a => if a.isEmpty then none else some a
   | none => none⟩

/-- The per-sentence TTS/upload loop (`for (const { sentence, action } of
parsed)`): returns the sections on success, or `none` when a TTS or upload
call throws, together with the number of TTS and upload calls attempted. -/
def buildSections (o : PostOracle) : List ScriptEntry → Nat →
    Option (List SectionDoc) × Nat × Nat
  | [], _ => (some [], 0, 0)
  | e :: rest, i =>
    if o.ttsOk i then
      if o.uploadOk i then
        match buildSections o rest (i + 1) with
        | (some secs, t, u) => (some (mkSection o i e :: secs), t + 1, u + 1)
        | (none, t, u) => (none, t + 1, u + 1)
      else (none, 1, 1)
    else (none, 1, 0)

/-- Embedding of `const title = parsed[0].sentence || 'Summary'`. -/
def titleOf (parsed : List ScriptEntry) : List Char :=
  match parsed with
  | [] => "Summary".data
  | e :: _ => if e.sentence.isEmpty then "Summary".data else e.sentence

/-- Outcome of one request: the response, the Story records persisted by the
request, and which downstream calls were made. -/
structure PostOutcome where
  resp : HttpResp
  stories : List StoryDoc
  fetchCalled : Bool
  chatCalled : Bool
  ttsCalls : Nat
  uploadCalls : Nat
  createCalled : Bool
deriving Repr, DecidableEq

/-- The handler's pipeline after content acquisition: summarise, parse,
synthesise and upload each sentence, persist. -/
def postCore (o : PostOracle) (fetched : Bool) : PostOutcome :=
  if (generateSummary o).data.isEmpty then
    ⟨.summaryFailed, [], fetched, true, 0, 0, false⟩
  else if (parseStructuredScript (generateSummary o)).isEmpty then
    ⟨.emptyParse, [], fetched, true, 0, 0, false⟩
  else
    match buildSections o (parseStructuredScript (generateSummary o)) 0 with
    | (some secs, t, u) =>
      if o.createOk then
        ⟨.created ⟨titleOf (parseStructuredScript (generateSummary o)), secs⟩,
         [⟨titleOf (parseStructuredScript (generateSummary o)), secs⟩],
         fetched, true, t, u, true⟩
      else ⟨.internalError, [], fetched, true, t, u, true⟩
    | (none, t, u) => ⟨.internalError, [], fetched, true, t, u, false⟩

/-- Embedding of the `POST /summaries` handler of `src/app.js`: reject bodies
with neither usable `text` nor usable `url` before any downstream call; fetch
the URL only when `text` is falsy and `url` truthy; then run the pipeline. -/
def postSummaries (o : PostOracle) (b : ReqBody) : PostOutcome :=
  if jsStrInvalid b.text && jsStrInvalid b.url then
    ⟨.invalidInput, [], false, false, 0, 0, false⟩
  else if jsFalsy b.text && !jsFalsy b.url then
    match o.fetchResult with
    | none => ⟨.urlError, [], true, false, 0, 0, false⟩
    | some _ => postCore o true
  else
    postCore o false

/-- A sample oracle whose chat call returns one well-formed block but whose
first storage upload fails. -/
def uploadFailOracle : PostOracle :=
  ⟨none, some "\"sentence\": \"Hi\" END_SENTENCE END_SUMMARY",
   fun _ => true, fun _ => false, fun _ => "key", true⟩

/-- A sample valid request body carrying raw text. -/
def sampleBody : ReqBody := ⟨JsValue.vstr "some input text", JsValue.nonString⟩

/-!  Model of the multi-persona `POST /summaries` handler of
`src/unnamed/part_000` (lines 185-258): three persona scripts are generated,
parsed with the same `parseStructuredScript`, gated by
`if (!brainParsed.length && !girlParsed.length)`, and persisted as one record
with three section lists. -/

/-- One persisted record of the multi-persona variant. -/
structure MultiStoryDoc where
  title : List Char
  sectionsBrain : List SectionDoc
  sectionsGirl : List SectionDoc
  sectionsFinancer : List SectionDoc
  sourceUrl : Option String
deriving Repr, DecidableEq

/-- Responses of the multi-persona handler; `genFailed` is the 502
`'Failed to generate summaries.'` response. -/
inductive MultiResp where
  | invalidInput
  | urlError
  | genFailed
  | internalError
  | created (st : MultiStoryDoc)
deriving Repr, DecidableEq

/-- Outcome of one multi-persona request. -/
structure MultiOutcome where
  resp : MultiResp
  stories : List MultiStoryDoc
deriving Repr, DecidableEq

/-- Oracle for the multi-persona handler.  A `none` script models a
`generatePersonaScript` rejection (no catch inside `Promise.all`, so the
outer handler returns 500).  TTS/upload success and produced URLs are indexed
per persona and sentence position. -/
structure MultiOracle where
  fetchResult : Option String
  brainScript : Option String
  girlScript : Option String
  financerScript : Option String
  ttsOkB : Nat → Bool
  ttsOkG : Nat → Bool
  ttsOkF : Nat → Bool
  uploadOkB : Nat → Bool
  uploadOkG : Nat → Bool
  uploadOkF : Nat → Bool
  urlOfB : Nat → String
  urlOfG : Nat → String
  urlOfF : Nat → String
  createOk : Bool

/-- The trimmed script text of one persona call
(`resp?.choices?.[0]?.message?.content?.trim() || ''`). -/
def personaScript (r : String) : String := String.mk (trimChars r.data)

/-- The `ttsAndUploadSections` loop of the multi-persona variant: sections
carry the Cloudinary URL in `key`; a TTS or upload rejection aborts. -/
def buildSectionsM (ttsOk uploadOk : Nat → Bool) (urlOf : Nat → String) :
    List ScriptEntry → Nat → Option (List SectionDoc)
  | [], _ => some []
  | e :: rest, i =>
    if ttsOk i && uploadOk i then
      match buildSectionsM ttsOk uploadOk urlOf rest (i + 1) with
      | some secs =>
        some (⟨e.sentence, some (urlOf i), none,
               match e.action with
               | some a => if a.isEmpty then none else some a
               | none => none⟩ :: secs)
      | none => none
    else none

/-- Embedding of `brainParsed[0]?.sentence || ...`: the first entry's
sentence when present and truthy. -/
def firstSentence (l : List ScriptEntry) : Option (List Char) :=
  match l with
  | [] => none
  | e :: _ => if e.sentence.isEmpty then none else some e.sentence

/-- Title selection of the multi-persona handler: first Brain sentence, else
Girl, else Financer, else `'Summary'`. -/
def multiTitle (bp gp fp : List ScriptEntry) : List Char :=
  match firstSentence bp with
  | some s => s
  | none =>
    match firstSentence gp with
    | some s => s
    | none =>
      match firstSentence fp with
      | some s => s
      | none => "Summary".data

/-- Embedding of `sourceUrl: url || null`. -/
def sourceUrlOf (u : JsValue) : Option String :=
  match u with
  | .vstr s => if s.data.isEmpty then none else some s
  | .nonString => none

/-- The multi-persona pipeline after content acquisition. -/
def postMultiCore (o : MultiOracle) (b : ReqBody) : MultiOutcome :=
  match o.brainScript, o.girlScript, o.financerScript with
  | some bs, some gs, some fs =>
    let brainParsed := parseStructuredScript (personaScript bs)
    let girlParsed := parseStructuredScript (personaScript gs)
    let financerParsed := parseStructuredScript (personaScript fs)
    if brainParsed.isEmpty && girlParsed.isEmpty then ⟨.genFailed, []⟩
    else
      match buildSectionsM o.ttsOkB o.uploadOkB o.urlOfB brainParsed 0,
            buildSectionsM o.ttsOkG o.uploadOkG o.urlOfG girlParsed 0,
            buildSectionsM o.ttsOkF o.uploadOkF o.urlOfF financerParsed 0 with
      | some sb, some sg, some sf =>
        if o.createOk then
          let st : MultiStoryDoc :=
            ⟨multiTitle brainParsed girlParsed financerParsed, sb, sg, sf, sourceUrlOf b.url⟩
          ⟨.created st, [st]⟩
        else ⟨.internalError, []⟩
      | _, _, _ => ⟨.internalError, []⟩
  | _, _, _ => ⟨.internalError, []⟩

/-- Embedding of the multi-persona `POST /summaries` handler. -/
def postMulti (o : MultiOracle) (b : ReqBody) : MultiOutcome :=
  if jsStrInvalid b.text && jsStrInvalid b.url then ⟨.invalidInput, []⟩
  else if jsFalsy b.text && !jsFalsy b.url then
    match o.fetchResult with
    | none => ⟨.urlError, []⟩
    | some _ => postMultiCore o b
  else postMultiCore o b

/-- The parsed Brain script the multi-persona handler computes (empty when
the persona call rejects, in which case the handler never reaches parsing). -/
def brainParsedOf (o : MultiOracle) : List ScriptEntry :=
  match o.brainScript with
  | some s => parseStructuredScript (personaScript s)
  | none => []

/-- The parsed Girl script the multi-persona handler computes. -/
def girlParsedOf (o : MultiOracle) : List ScriptEntry :=
  match o.girlScript with
  | some s => parseStructuredScript (personaScript s)
  | none => []

/-- The parsed Financer script the multi-persona handler computes. -/
def financerParsedOf (o : MultiOracle) : List ScriptEntry :=
  match o.financerScript with
  | some s => parseStructuredScript (personaScript s)
  | none => []

/-- An oracle whose Brain and Girl scripts come back empty while the Financer
script parses to one sentence; every downstream call succeeds. -/
def financerOnlyOracle : MultiOracle :=
  ⟨none, some "", some "",
   some "\"sentence\": \"Money.\" END_SENTENCE END_SUMMARY",
   fun _ => true, fun _ => true, fun _ => true,
   fun _ => true, fun _ => true, fun _ => true,
   fun _ => "u", fun _ => "u", fun _ => "u", true⟩

/-- An oracle whose Brain script parses to one sentence while the Girl and
Financer scripts come back empty; every downstream call succeeds. -/
def brainOnlyOracle : MultiOracle :=
  ⟨none, some "\"sentence\": \"Hi.\" END_SENTENCE END_SUMMARY", some "", some "",
   fun _ => true, fun _ => true, fun _ => true,
   fun _ => true, fun _ => true, fun _ => true,
   fun _ => "u", fun _ => "u", fun _ => "u", true⟩

/-!  Model of the `GET /summaries` handler of `src/app.js` (lines 303-321)
and its `shuffle` helper (lines 127-134).  The random draws
`Math.floor(Math.random() * (i + 1))` are abstracted by a function giving the
drawn index for each loop position; genuine draws always satisfy `r i ≤ i`,
and `listSwap` leaves the list unchanged on an out-of-range index, which
genuine draws never produce. -/

/-- Swap two positions of a list (the `[a[i], a[j]] = [a[j], a[i]]` step). -/
def listSwap {α : Type} (l : List α) (i j : Nat) : List α :=
  match l[i]?, l[j]? with
  | some x, some y => (l.set i y).set j x
  | _, _ => l

/-- The loop of the Fisher-Yates `shuffle`, from index `i` down to 1. -/
def fisherYatesGo {α : Type} (r : Nat → Nat) : Nat → List α → List α
  | 0, a => a
  | i + 1, a => fisherYatesGo r i (listSwap a (i + 1) (r (i + 1)))

/-- Embedding of `shuffle` from `src/app.js`: copy, then swap positions
`n-1 .. 1` each with a drawn position. -/
def shuffle {α : Type} (r : Nat → Nat) (l : List α) : List α :=
  fisherYatesGo r (l.length - 1) l

/-- A section as returned by the read path: the stored fields plus the
resolved `audio` URL. -/
structure ResolvedSection where
  text : List Char
  key : Option String
  audio : Option String
  action : Option (List Char)
deriving Repr, DecidableEq

/-- Embedding of the per-section resolution of the read path:
`const audio = s.key ? await presignAudio(s.key, 3600) : s.audio`, spread over
the stored section. -/
def resolveSection (presign : String → String) (s : SectionDoc) : ResolvedSection :=
  match s.key with
  | some k => if k.data.isEmpty then ⟨s.text, s.key, s.audio, s.action⟩
              else ⟨s.text, s.key, some (presign k), s.action⟩
  | none => ⟨s.text, s.key, s.audio, s.action⟩

/-- A story as returned by the read path. -/
structure ResolvedStory where
  title : List Char
  sections : List ResolvedSection
deriving Repr, DecidableEq

/-- Resolution of one stored story: every section gets its playable URL. -/
def resolveStory (presign : String → String) (st : StoryDoc) : ResolvedStory :=
  ⟨st.title, st.sections.map (resolveSection presign)⟩

/-- Embedding of the `GET /summaries` handler: resolve every stored story,
then shuffle the whole collection. -/
def getSummaries (r : Nat → Nat) (presign : String → String)
    (docs : List StoryDoc) : List ResolvedStory :=
  shuffle r (docs.map (resolveStory presign))

/-!  General supporting lemmas. -/

/-- An all-whitespace character list trims to nothing. -/
theorem trimChars_of_all_ws {l : List Char} (h : ∀ c ∈ l, isJsWs c = true) :
    trimChars l = [] := by
  unfold trimChars
  have h1 : l.dropWhile isJsWs = [] := by
    induction l with
    | nil => rfl
    | cons c cs ih =>
      rw [List.dropWhile_cons_of_pos (h c (by simp))]
      exact ih fun d hd => h d (by simp [hd])
  rw [h1]
  rfl

/-- Permuting an element out of a set position: `t[m] :: t.set m a ~ a :: t`. -/
theorem get_cons_set_perm {α : Type} :
    ∀ (t : List α) (m : Nat) (hm : m < t.length) (a : α),
      List.Perm (t.get ⟨m, hm⟩ :: t.set m a) (a :: t)
  | b :: t, 0, _, a => by
    simpa using List.Perm.swap a b t
  | b :: t, m + 1, hm, a => by
    have hm := Nat.lt_of_succ_lt_succ hm
    have ih := get_cons_set_perm t m hm a
    exact (List.Perm.swap b (t.get ⟨m, hm⟩) (t.set m a)).trans
      ((ih.cons b).trans (List.Perm.swap a b t))

/-- The double `set` realising one swap is a permutation. -/
theorem set_set_perm {α : Type} :
    ∀ (l : List α) (i j : Nat) (hi : i < l.length) (hj : j < l.length),
      List.Perm ((l.set i (l.get ⟨j, hj⟩)).set j (l.get ⟨i, hi⟩)) l
  | a :: t, 0, 0, _, _ => by simp
  | a :: t, 0, m + 1, _, hj => by
    have hm := Nat.lt_of_succ_lt_succ hj
    simpa using get_cons_set_perm t m hm a
  | a :: t, n + 1, 0, hi, _ => by
    have hn := Nat.lt_of_succ_lt_succ hi
    simpa using get_cons_set_perm t n hn a
  | a :: t, n + 1, m + 1, hi, hj => by
    have hn := Nat.lt_of_succ_lt_succ hi
    have hm := Nat.lt_of_succ_lt_succ hj
    simpa using (set_set_perm t n m hn hm).cons a

/-- One `listSwap` is a permutation. -/
theorem listSwap_perm {α : Type} (l : List α) (i j : Nat) :
    List.Perm (listSwap l i j) l := by
  unfold listSwap
  cases h1 : l[i]? with
  | none => exact List.Perm.refl l
  | some x =>
    cases h2 : l[j]? with
    | none => exact List.Perm.refl l
    | some y =>
      have hi : i < l.length := by
        by_contra hc
        rw [List.getElem?_eq_none (Nat.le_of_not_lt hc)] at h1
        cases h1
      have hj : j < l.length := by
        by_contra hc
        rw [List.getElem?_eq_none (Nat.le_of_not_lt hc)] at h2
        cases h2
      have hx : l.get ⟨i, hi⟩ = x := by
        have := List.getElem?_eq_getElem hi
        rw [h1] at this
        simpa using this.symm
      have hy : l.get ⟨j, hj⟩ = y := by
        have := List.getElem?_eq_getElem hj
        rw [h2] at this
        simpa using this.symm
      rw [← hx, ← hy]
      exact set_set_perm l i j hi hj

/-- Every run of the Fisher-Yates loop is a permutation. -/
theorem fisherYatesGo_perm {α : Type} (r : Nat → Nat) :
    ∀ (n : Nat) (l : List α), List.Perm (fisherYatesGo r n l) l
  | 0, l => List.Perm.refl l
  | n + 1, l =>
    (fisherYatesGo_perm r n (listSwap l (n + 1) (r (n + 1)))).trans
      (listSwap_perm l (n + 1) (r (n + 1)))

/-- The `shuffle` helper returns a permutation of its input. -/
theorem shuffle_perm {α : Type} (r : Nat → Nat) (l : List α) :
    List.Perm (shuffle r l) l :=
  fisherYatesGo_perm r (l.length - 1) l

/-!  Claim theorems. -/

/-- C10: for every successful list request, the returned collection is a
permutation of the full set of stored Story records (each record resolved to
carry its playable audio URL, each appearing exactly once), i.e. every read
returns the full collection with only its presentation order changed by the
Fisher-Yates shuffle. -/
theorem getSummaries_perm (r : Nat → Nat) (presign : String → String)
    (docs : List StoryDoc) :
    List.Perm (getSummaries r presign docs) (docs.map (resolveStory presign)) :=
  shuffle_perm r (docs.map (resolveStory presign))

/-- C4: `parseStructuredScript` is total by construction in this embedding
(it is a Lean function and never raises); every non-string input yields the
empty sequence, and so do the empty string and every whitespace-only string. -/
theorem parse_total_degenerate :
    (∀ v : JsValue, (∀ s, v ≠ JsValue.vstr s) → parseStructuredScriptJs v = []) ∧
    parseStructuredScript "" = [] ∧
    (∀ s : String, (∀ c ∈ s.data, isJsWs c = true) → parseStructuredScript s = []) := by
  refine ⟨?_, by decide, ?_⟩
  · intro v hv
    cases v with
    | vstr s => exact absurd rfl (hv s)
    | nonString => rfl
  · intro s h
    by_cases hd : s.data = []
    · unfold parseStructuredScript
      rw [if_pos hd]
    · have ht : trimChars s.data = [] := trimChars_of_all_ws h
      unfold parseStructuredScript
      rw [if_neg hd, ht]
      decide

/-- Witness for C4: a non-string input and a whitespace-only input. -/
theorem parse_total_degenerate_witness :
    parseStructuredScriptJs JsValue.nonString = [] ∧
      parseStructuredScript " \t " = [] :=
  ⟨parse_total_degenerate.1 JsValue.nonString (fun _ h => JsValue.noConfusion h),
   parse_total_degenerate.2.2 " \t " (by decide)⟩

/-- C8: every entry of every sequence returned by `parseStructuredScript` has
a non-empty sentence, on both the structured-extraction path and the fallback
path. -/
theorem parse_entries_nonempty (s : String) (e : ScriptEntry)
    (he : e ∈ parseStructuredScript s) : e.sentence ≠ [] := by
  unfold parseStructuredScript at he
  split at he
  · simp at he
  · split at he
    · unfold fallbackEntries at he
      simp only [List.mem_map] at he
      obtain ⟨frag, hfrag, rfl⟩ := he
      simp only [List.mem_filter, Bool.not_eq_eq_eq_not, Bool.not_true] at hfrag
      have hne : frag ≠ [] := by
        intro hnil
        rw [hnil] at hfrag
        simp at hfrag
      simpa using hne
    · unfold structuredEntries at he
      simp only [List.mem_filterMap] at he
      obtain ⟨part, _, hex⟩ := he
      unfold extractEntry at hex
      split at hex
      · split at hex
        · cases hex
        · cases hex
          intro hnil
          simp_all
      · cases hex

/-- Witness for C8: a concrete parse output entry has a non-empty sentence. -/
theorem parse_entries_nonempty_witness :
    (⟨"Hi.".data, none⟩ : ScriptEntry) ∈ parseStructuredScript "Hi." ∧
      "Hi.".data ≠ [] :=
  ⟨by decide, parse_entries_nonempty "Hi." ⟨"Hi.".data, none⟩ (by decide)⟩

/-- C9: a create request whose body has neither a usable text field nor a
usable url field is answered 400 with no Story persisted and no downstream
call of any kind (no fetch, no chat call, no TTS, no upload, no insert). -/
theorem post_invalid_body_no_calls (o : PostOracle) (b : ReqBody)
    (ht : jsStrInvalid b.text = true) (hu : jsStrInvalid b.url = true) :
    postSummaries o b = ⟨HttpResp.invalidInput, [], false, false, 0, 0, false⟩ := by
  unfold postSummaries
  rw [ht, hu]
  rfl

/-- Witness for C9: a whitespace-only text and an absent url. -/
theorem post_invalid_body_no_calls_witness :
    jsStrInvalid (JsValue.vstr " ") = true ∧ jsStrInvalid JsValue.nonString = true ∧
      postSummaries ⟨none, none, fun _ => true, fun _ => true, fun _ => "", true⟩
          ⟨JsValue.vstr " ", JsValue.nonString⟩ =
        ⟨HttpResp.invalidInput, [], false, false, 0, 0, false⟩ :=
  ⟨by decide, by decide,
   post_invalid_body_no_calls _ _ (by decide) (by decide)⟩

/-- Soundness of the TTS/upload loop: when it completes, every sentence got a
section, and every TTS and upload call in range succeeded, one call of each
kind per sentence. -/
theorem buildSections_sound (o : PostOracle) :
    ∀ (l : List ScriptEntry) (i : Nat) (secs : List SectionDoc),
      (buildSections o l i).1 = some secs →
      secs.length = l.length ∧
      (buildSections o l i).2.1 = l.length ∧
      (buildSections o l i).2.2 = l.length ∧
      (∀ k, k < l.length → o.ttsOk (i + k) = true ∧ o.uploadOk (i + k) = true) := by
  intro l
  induction l with
  | nil =>
    intro i secs h
    simp only [buildSections] at h
    cases h
    exact ⟨rfl, rfl, rfl, fun k hk => absurd hk (Nat.not_lt_zero k)⟩
  | cons e rest ih =>
    intro i secs h
    cases htts : o.ttsOk i with
    | false =>
      have hval : buildSections o (e :: rest) i = (none, 1, 0) := by
        simp only [buildSections, htts]
        rfl
      rw [hval] at h
      cases h
    | true =>
      cases hup : o.uploadOk i with
      | false =>
        have hval : buildSections o (e :: rest) i = (none, 1, 1) := by
          simp only [buildSections, htts, hup]
          rfl
        rw [hval] at h
        cases h
      | true =>
        cases hrec : buildSections o rest (i + 1) with
        | mk ores tu =>
          obtain ⟨t, u⟩ := tu
          cases ores with
          | none =>
            have hval : buildSections o (e :: rest) i = (none, t + 1, u + 1) := by
              simp only [buildSections, htts, hup, hrec]
              simp
            rw [hval] at h
            cases h
          | some secs0 =>
            have hval : buildSections o (e :: rest) i =
                (some (mkSection o i e :: secs0), t + 1, u + 1) := by
              simp only [buildSections, htts, hup, hrec]
              simp
            rw [hval] at h
            cases h
            have hr : (buildSections o rest (i + 1)).1 = some secs0 := by rw [hrec]
            obtain ⟨hlen, hT, hU, hall⟩ := ih (i + 1) secs0 hr
            rw [hrec] at hT hU
            simp only at hT hU
            rw [hval]
            refine ⟨by simp [hlen], by simp [hT], by simp [hU], ?_⟩
            intro k hk
            cases k with
            | zero => simpa using ⟨htts, hup⟩
            | succ k0 =>
              have h3 := hall k0 (Nat.lt_of_succ_lt_succ hk)
              have he : i + 1 + k0 = i + (k0 + 1) := by omega
              rw [he] at h3
              exact h3

/-- The pipeline core persists nothing and creates no story when the parsed
script is empty. -/
theorem postCore_parsed_nil (o : PostOracle) (f : Bool)
    (h : parseStructuredScript (generateSummary o) = []) :
    (postCore o f).stories = [] ∧
      ∀ st, (postCore o f).resp ≠ HttpResp.created st := by
  unfold postCore
  split
  · exact ⟨rfl, by intro st hc; cases hc⟩
  · rw [if_pos (by simp [h])]
    exact ⟨rfl, by intro st hc; cases hc⟩

/-- C5: story creation is all-or-nothing.  If the parsed script is empty the
handler answers with an error and persists nothing; if any in-range storage
upload fails the handler answers with an error and persists nothing; and a
Story is persisted only when the response is 201, exactly one record is
stored, and every sentence's TTS and upload succeeded (one upload per
section). -/
theorem post_all_or_nothing (o : PostOracle) (b : ReqBody) :
    (parseStructuredScript (generateSummary o) = [] →
      (postSummaries o b).stories = [] ∧
        ∀ st, (postSummaries o b).resp ≠ HttpResp.created st) ∧
    ((∃ i, i < (parseStructuredScript (generateSummary o)).length ∧
        o.uploadOk i = false) →
      (postSummaries o b).stories = [] ∧
        ∀ st, (postSummaries o b).resp ≠ HttpResp.created st) ∧
    ((postSummaries o b).stories ≠ [] →
      ∃ st, (postSummaries o b).resp = HttpResp.created st ∧
        (postSummaries o b).stories = [st] ∧
        st.sections.length = (parseStructuredScript (generateSummary o)).length ∧
        (postSummaries o b).uploadCalls =
          (parseStructuredScript (generateSummary o)).length ∧
        ∀ i, i < (parseStructuredScript (generateSummary o)).length →
          o.ttsOk i = true ∧ o.uploadOk i = true) := by
  have hcore : ∀ f : Bool,
      (parseStructuredScript (generateSummary o) = [] →
        (postCore o f).stories = [] ∧
          ∀ st, (postCore o f).resp ≠ HttpResp.created st) ∧
      ((∃ i, i < (parseStructuredScript (generateSummary o)).length ∧
          o.uploadOk i = false) →
        (postCore o f).stories = [] ∧
          ∀ st, (postCore o f).resp ≠ HttpResp.created st) ∧
      ((postCore o f).stories ≠ [] →
        ∃ st, (postCore o f).resp = HttpResp.created st ∧
          (postCore o f).stories = [st] ∧
          st.sections.length = (parseStructuredScript (generateSummary o)).length ∧
          (postCore o f).uploadCalls =
            (parseStructuredScript (generateSummary o)).length ∧
          ∀ i, i < (parseStructuredScript (generateSummary o)).length →
            o.ttsOk i = true ∧ o.uploadOk i = true) := by
    intro f
    refine ⟨postCore_parsed_nil o f, ?_, ?_⟩
    · intro ⟨i, hi, hup⟩
      unfold postCore
      split
      · exact ⟨rfl, by intro st hc; cases hc⟩
      · split
        · exact ⟨rfl, by intro st hc; cases hc⟩
        · cases hbs : buildSections o (parseStructuredScript (generateSummary o)) 0 with
          | mk ores counts =>
            obtain ⟨t, u⟩ := counts
            cases ores with
            | some secs =>
              have h1 : (buildSections o (parseStructuredScript (generateSummary o)) 0).1 =
                  some secs := by rw [hbs]
              obtain ⟨-, -, -, hall⟩ := buildSections_sound o _ 0 secs h1
              have := (hall i hi).2
              simp only [Nat.zero_add] at this
              rw [hup] at this
              cases this
            | none =>
              exact ⟨rfl, by intro st hc; cases hc⟩
    · intro hne
      by_cases hsum : (generateSummary o).data.isEmpty = true
      · have hpc : postCore o f = ⟨.summaryFailed, [], f, true, 0, 0, false⟩ := by
          unfold postCore
          rw [if_pos hsum]
        rw [hpc] at hne
        simp at hne
      · by_cases hpe : (parseStructuredScript (generateSummary o)).isEmpty = true
        · have hpc : postCore o f = ⟨.emptyParse, [], f, true, 0, 0, false⟩ := by
            unfold postCore
            rw [if_neg hsum, if_pos hpe]
          rw [hpc] at hne
          simp at hne
        · cases hbs : buildSections o (parseStructuredScript (generateSummary o)) 0 with
          | mk ores counts =>
            obtain ⟨t, u⟩ := counts
            cases ores with
            | none =>
              have hpc : postCore o f = ⟨.internalError, [], f, true, t, u, false⟩ := by
                unfold postCore
                rw [if_neg hsum, if_neg hpe, hbs]
              rw [hpc] at hne
              simp at hne
            | some secs =>
              cases hcr : o.createOk with
              | false =>
                have hpc : postCore o f = ⟨.internalError, [], f, true, t, u, true⟩ := by
                  unfold postCore
                  rw [if_neg hsum, if_neg hpe, hbs, hcr]
                  simp
                rw [hpc] at hne
                simp at hne
              | true =>
                have hpc : postCore o f =
                    ⟨.created ⟨titleOf (parseStructuredScript (generateSummary o)), secs⟩,
                     [⟨titleOf (parseStructuredScript (generateSummary o)), secs⟩],
                     f, true, t, u, true⟩ := by
                  unfold postCore
                  rw [if_neg hsum, if_neg hpe, hbs, hcr]
                  simp
                have h1 : (buildSections o (parseStructuredScript (generateSummary o)) 0).1 =
                    some secs := by rw [hbs]
                obtain ⟨hlen, -, hU, hall⟩ := buildSections_sound o _ 0 secs h1
                rw [hbs] at hU
                simp only at hU
                rw [hpc]
                refine ⟨_, rfl, rfl, by simpa using hlen, by simpa using hU, ?_⟩
                intro i hi
                simpa using hall i hi
  unfold postSummaries
  split
  · exact ⟨fun _ => ⟨rfl, by intro st hc; cases hc⟩,
      fun _ => ⟨rfl, by intro st hc; cases hc⟩,
      fun hne => absurd rfl hne⟩
  · split
    · cases o.fetchResult with
      | none =>
        exact ⟨fun _ => ⟨rfl, by intro st hc; cases hc⟩,
          fun _ => ⟨rfl, by intro st hc; cases hc⟩,
          fun hne => absurd rfl hne⟩
      | some e => exact hcore true
    · exact hcore false

/-- Witness for C5: a concrete request whose first upload fails persists
nothing and is answered with an error. -/
theorem post_all_or_nothing_witness :
    (∃ i, i < (parseStructuredScript (generateSummary uploadFailOracle)).length ∧
        uploadFailOracle.uploadOk i = false) ∧
      (postSummaries uploadFailOracle sampleBody).stories = [] ∧
        ∀ st, (postSummaries uploadFailOracle sampleBody).resp ≠ HttpResp.created st :=
  ⟨⟨0, by decide, rfl⟩,
   (post_all_or_nothing uploadFailOracle sampleBody).2.1 ⟨0, by decide, rfl⟩⟩

/-- The multi-persona TTS/upload loop completes whenever every call succeeds. -/
theorem buildSectionsM_total (ttsOk uploadOk : Nat → Bool) (urlOf : Nat → String)
    (h : ∀ i, ttsOk i = true ∧ uploadOk i = true) :
    ∀ (l : List ScriptEntry) (i : Nat),
      ∃ secs, buildSectionsM ttsOk uploadOk urlOf l i = some secs := by
  intro l
  induction l with
  | nil => exact fun i => ⟨[], rfl⟩
  | cons e rest ih =>
    intro i
    obtain ⟨secs, hrec⟩ := ih (i + 1)
    refine ⟨⟨e.sentence, some (urlOf i), none,
      match e.action with
      | some a => if a.isEmpty then none else some a
      | none => none⟩ :: secs, ?_⟩
    unfold buildSectionsM
    rw [(h i).1, (h i).2, hrec]
    rfl

/-- Counterexample to C6 as stated: a request whose Financer script parses to
one sentence while Brain and Girl parse to nothing is rejected with the
generation-failure 502 and persists nothing, although one persona has
content. -/
theorem postMulti_financer_only_fails :
    financerParsedOf financerOnlyOracle ≠ [] ∧
      postMulti financerOnlyOracle sampleBody = ⟨MultiResp.genFailed, []⟩ :=
  ⟨by decide, by decide⟩

/-- C6 amended: the multi-persona create tolerates empty persona scripts only
through the Brain and Girl personas: whenever the Brain or the Girl script
parses to a non-empty sequence the generation-failure 502 is never returned,
and (for a reachable request whose persona calls returned and whose TTS,
upload and insert calls succeed) a Story is persisted.  Financer-only content
does not prevent the 502. -/
theorem postMulti_brain_or_girl_tolerates (o : MultiOracle) (b : ReqBody)
    (h : brainParsedOf o ≠ [] ∨ girlParsedOf o ≠ []) :
    (postMulti o b).resp ≠ MultiResp.genFailed ∧
    ((jsStrInvalid b.text = false ∨ jsStrInvalid b.url = false) →
     (jsFalsy b.text = false ∨ o.fetchResult ≠ none) →
     (∃ bs, o.brainScript = some bs) →
     (∃ gs, o.girlScript = some gs) →
     (∃ fs, o.financerScript = some fs) →
     (∀ i, o.ttsOkB i = true ∧ o.uploadOkB i = true ∧
       o.ttsOkG i = true ∧ o.uploadOkG i = true ∧
       o.ttsOkF i = true ∧ o.uploadOkF i = true) →
     o.createOk = true →
     ∃ st, (postMulti o b).resp = MultiResp.created st ∧
       (postMulti o b).stories = [st]) := by
  have hgate : ∀ bs gs,
      o.brainScript = some bs → o.girlScript = some gs →
      ((parseStructuredScript (personaScript bs)).isEmpty &&
        (parseStructuredScript (personaScript gs)).isEmpty) = false := by
    intro bs gs hb hg
    cases h with
    | inl hB =>
      unfold brainParsedOf at hB
      rw [hb] at hB
      simp [List.isEmpty_iff, hB]
    | inr hG =>
      unfold girlParsedOf at hG
      rw [hg] at hG
      simp [List.isEmpty_iff, hG]
  have hcore : (postMultiCore o b).resp ≠ MultiResp.genFailed := by
    unfold postMultiCore
    cases hb : o.brainScript with
    | none => intro hc; cases hc
    | some bs =>
      cases hg : o.girlScript with
      | none => intro hc; cases hc
      | some gs =>
        cases hf : o.financerScript with
        | none => intro hc; cases hc
        | some fs =>
          simp only
          rw [hgate bs gs hb hg]
          simp only [Bool.false_eq_true, if_false]
          split
          · split
            · intro hc; cases hc
            · intro hc; cases hc
          · intro hc; cases hc
  constructor
  · unfold postMulti
    split
    · intro hc; cases hc
    · split
      · cases o.fetchResult with
        | none => intro hc; cases hc
        | some e => exact hcore
      · exact hcore
  · intro hvalid hfetch ⟨bs, hb⟩ ⟨gs, hg⟩ ⟨fs, hf⟩ hok hcr
    have hcore2 : ∃ st, (postMultiCore o b).resp = MultiResp.created st ∧
        (postMultiCore o b).stories = [st] := by
      unfold postMultiCore
      rw [hb, hg, hf]
      simp only
      rw [hgate bs gs hb hg]
      simp only [Bool.false_eq_true, if_false]
      obtain ⟨sb, hsb⟩ := buildSectionsM_total o.ttsOkB o.uploadOkB o.urlOfB
        (fun i => ⟨(hok i).1, (hok i).2.1⟩) (parseStructuredScript (personaScript bs)) 0
      obtain ⟨sg, hsg⟩ := buildSectionsM_total o.ttsOkG o.uploadOkG o.urlOfG
        (fun i => ⟨(hok i).2.2.1, (hok i).2.2.2.1⟩) (parseStructuredScript (personaScript gs)) 0
      obtain ⟨sf, hsf⟩ := buildSectionsM_total o.ttsOkF o.uploadOkF o.urlOfF
        (fun i => ⟨(hok i).2.2.2.2.1, (hok i).2.2.2.2.2⟩)
        (parseStructuredScript (personaScript fs)) 0
      rw [hsb, hsg, hsf, hcr]
      exact ⟨_, rfl, rfl⟩
    unfold postMulti
    split
    · rename_i hinv
      rw [Bool.and_eq_true] at hinv
      cases hvalid with
      | inl hv => rw [hv] at hinv; cases hinv.1
      | inr hv => rw [hv] at hinv; cases hinv.2
    · split
      · cases hfr : o.fetchResult with
        | none =>
          rename_i hfalsy
          rw [Bool.and_eq_true] at hfalsy
          cases hfetch with
          | inl hv => rw [hv] at hfalsy; cases hfalsy.1
          | inr hv => exact absurd hfr hv
        | some e => exact hcore2
      · exact hcore2

/-- Witness for C6 (amended): a request whose Brain script has content is
persisted even though Girl and Financer parse to nothing. -/
theorem postMulti_brain_or_girl_tolerates_witness :
    brainParsedOf brainOnlyOracle ≠ [] ∧
      (postMulti brainOnlyOracle sampleBody).resp ≠ MultiResp.genFailed ∧
      ∃ st, (postMulti brainOnlyOracle sampleBody).resp = MultiResp.created st ∧
        (postMulti brainOnlyOracle sampleBody).stories = [st] :=
  ⟨by decide,
   (postMulti_brain_or_girl_tolerates brainOnlyOracle sampleBody (Or.inl (by decide))).1,
   (postMulti_brain_or_girl_tolerates brainOnlyOracle sampleBody (Or.inl (by decide))).2
     (Or.inl (by decide)) (Or.inl (by decide)) ⟨_, rfl⟩ ⟨_, rfl⟩ ⟨_, rfl⟩
     (fun _ => ⟨rfl, rfl, rfl, rfl, rfl, rfl⟩) rfl⟩

/-- dropWhile distributes over an append whose right part starts with a
character that fails the predicate. -/
theorem dropWhile_append_cons_of_neg {p : Char → Bool} (a : List Char) (c : Char)
    (b : List Char) (hc : p c = false) :
    (a ++ c :: b).dropWhile p = a.dropWhile p ++ c :: b := by
  induction a with
  | nil => simp [List.dropWhile_cons, hc]
  | cons x xs ih =>
    by_cases hx : p x = true
    · simp only [List.cons_append, List.dropWhile_cons, hx, if_true, ih]
    · rw [Bool.not_eq_true] at hx
      simp [List.dropWhile_cons, hx]

/-- Trimming a text of the shape `a ++ END_SUMMARY ++ t` trims only the left
end of `a` and the right end of `t`: the delimiter's own non-whitespace
characters stop both scans. -/
theorem trimChars_sandwich (a t : List Char) :
    trimChars (a ++ endSummaryTok ++ t) =
      a.dropWhile isJsWs ++ endSummaryTok ++ (t.reverse.dropWhile isJsWs).reverse := by
  unfold trimChars
  rw [List.append_assoc]
  rw [show endSummaryTok ++ t = 'E' :: ("ND_SUMMARY".data ++ t) from rfl]
  rw [dropWhile_append_cons_of_neg a 'E' _ (by decide)]
  rw [List.reverse_append]
  have hrev : ('E' :: ("ND_SUMMARY".data ++ t)).reverse
      = t.reverse ++ "YRAMMUS_DNE".data := by
    rw [List.reverse_cons, List.reverse_append, List.append_assoc]
    congr 1
  rw [hrev, List.append_assoc]
  rw [show "YRAMMUS_DNE".data ++ (a.dropWhile isJsWs).reverse
      = 'Y' :: ("RAMMUS_DNE".data ++ (a.dropWhile isJsWs).reverse) from rfl]
  rw [dropWhile_append_cons_of_neg t.reverse 'Y' _ (by decide)]
  rw [List.reverse_append, List.reverse_cons, List.reverse_append,
    List.reverse_reverse]
  rw [show ("RAMMUS_DNE".data).reverse = "END_SUMMAR".data from by decide]
  simp only [List.append_assoc, List.cons_append, List.nil_append]
  congr 1

/-- A list prefix occurrence is an occurrence. -/
theorem containsSeq_of_isPrefixOf {pat u : List Char}
    (h : pat.isPrefixOf u = true) : containsSeq pat u = true := by
  cases u with
  | nil => simpa [containsSeq] using h
  | cons c cs => simp [containsSeq, h]

/-- Occurrence testing is monotone under suffixes. -/
theorem containsSeq_suffix_mono {pat : List Char} :
    ∀ {s w : List Char}, w <:+ s → containsSeq pat s = false →
      containsSeq pat w = false := by
  intro s
  induction s with
  | nil =>
    intro w hws h
    rw [List.suffix_nil.mp hws]
    exact h
  | cons c cs ih =>
    intro w hws h
    obtain ⟨p, hp⟩ := hws
    cases p with
    | nil =>
      rw [List.nil_append] at hp
      rw [hp]
      exact h
    | cons x xs =>
      have hw : w <:+ cs := ⟨xs, by injection hp⟩
      have hcs : containsSeq pat cs = false := by
        simp only [containsSeq, Bool.or_eq_false_iff] at h
        exact h.2
      exact ih hw hcs

/-- The terminal delimiter has no border: no proper non-empty prefix of
`END_SUMMARY` is also a suffix of it. -/
theorem endSummary_no_border :
    ∀ l, l < 11 → 1 ≤ l →
      endSummaryTok.take l ≠ endSummaryTok.drop (11 - l) := by
  decide

/-- Truncation at the first `END_SUMMARY` of a text of the shape
`u ++ END_SUMMARY ++ v` yields exactly `u` when `u` itself contains no
occurrence of the delimiter (border-freeness excludes straddling
occurrences). -/
theorem truncate_sandwich :
    ∀ (u v : List Char), containsSeq endSummaryTok u = false →
      truncateAtEndSummary (u ++ endSummaryTok ++ v) = u := by
  intro u
  induction u with
  | nil =>
    intro v _
    have hpre : endSummaryTok.isPrefixOf (endSummaryTok ++ v) = true :=
      List.isPrefixOf_iff_prefix.mpr (List.prefix_append _ _)
    rw [List.nil_append]
    rw [show endSummaryTok ++ v = 'E' :: ("ND_SUMMARY".data ++ v) from rfl] at hpre ⊢
    unfold truncateAtEndSummary
    rw [if_pos hpre]
  | cons c u' ih =>
    intro v hu
    simp only [containsSeq, Bool.or_eq_false_iff] at hu
    obtain ⟨hnp, hnc⟩ := hu
    have hlen : endSummaryTok.length = 11 := by decide
    have hn1 : (c :: u').length = u'.length + 1 := by simp
    have hfail : endSummaryTok.isPrefixOf ((c :: u') ++ (endSummaryTok ++ v)) = false := by
      by_contra hcon
      rw [Bool.not_eq_false] at hcon
      have hpre : endSummaryTok <+: (c :: u') ++ (endSummaryTok ++ v) :=
        List.isPrefixOf_iff_prefix.mp hcon
      have htake : endSummaryTok = ((c :: u') ++ (endSummaryTok ++ v)).take 11 := by
        have h2 := List.prefix_iff_eq_take.mp hpre
        rwa [hlen] at h2
      by_cases hle : 11 ≤ (c :: u').length
      · rw [List.take_append_of_le_length hle] at htake
        have h3 : endSummaryTok <+: (c :: u') := by
          rw [htake]
          exact List.take_prefix _ _
        rw [List.isPrefixOf_iff_prefix.mpr h3] at hnp
        cases hnp
      · push_neg at hle
        rw [List.take_append_eq_append_take,
          List.take_of_length_le (Nat.le_of_lt hle),
          List.take_append_of_le_length (by rw [hlen]; omega)] at htake
        have hdrop : endSummaryTok.drop (c :: u').length =
            endSummaryTok.take (11 - (c :: u').length) := by
          conv_lhs => rw [htake]
          exact List.drop_left _ _
        have h11 : 11 - (11 - (c :: u').length) = (c :: u').length := by omega
        exact endSummary_no_border (11 - (c :: u').length) (by omega) (by omega)
          (by rw [h11]; exact hdrop.symm)
    rw [List.append_assoc]
    rw [show (c :: u') ++ (endSummaryTok ++ v) = c :: (u' ++ (endSummaryTok ++ v)) from rfl]
    rw [show (c :: u') ++ (endSummaryTok ++ v) = c :: (u' ++ (endSummaryTok ++ v)) from rfl] at hfail
    unfold truncateAtEndSummary
    rw [hfail]
    simp only [Bool.false_eq_true, if_false]
    rw [← List.append_assoc]
    rw [ih v hnc]

/-- C2: no text situated after the first occurrence of `END_SUMMARY`
contributes to the output of `parseStructuredScript` — including well-formed
blocks after the delimiter, and including outputs produced by the fallback
path, since the whole result is a function of the text before the delimiter. -/
theorem parse_ignores_after_end_summary (s t : String)
    (hs : containsSeq endSummaryTok s.data = false) :
    parseStructuredScript (s ++ "END_SUMMARY" ++ t) =
      parseStructuredScript (s ++ "END_SUMMARY") := by
  have hdata1 : (s ++ "END_SUMMARY" ++ t).data = s.data ++ endSummaryTok ++ t.data := by
    simp [String.data_append, endSummaryTok]
  have hdata2 : (s ++ "END_SUMMARY").data = s.data ++ endSummaryTok := by
    simp [String.data_append, endSummaryTok]
  have hne1 : ¬ (s ++ "END_SUMMARY" ++ t).data = [] := by
    rw [hdata1]
    simp [endSummaryTok]
  have hne2 : ¬ (s ++ "END_SUMMARY").data = [] := by
    rw [hdata2]
    simp [endSummaryTok]
  have hsdw : containsSeq endSummaryTok (s.data.dropWhile isJsWs) = false :=
    containsSeq_suffix_mono (List.dropWhile_suffix isJsWs) hs
  have htr1 : truncateAtEndSummary (trimChars (s ++ "END_SUMMARY" ++ t).data) =
      s.data.dropWhile isJsWs := by
    rw [hdata1, trimChars_sandwich]
    exact truncate_sandwich _ _ hsdw
  have htr2 : truncateAtEndSummary (trimChars (s ++ "END_SUMMARY").data) =
      s.data.dropWhile isJsWs := by
    rw [hdata2]
    rw [show s.data ++ endSummaryTok = s.data ++ endSummaryTok ++ ([] : List Char) from
      by simp]
    rw [trimChars_sandwich]
    simp only [List.reverse_nil, List.dropWhile_nil, List.append_nil]
    have h4 := truncate_sandwich (s.data.dropWhile isJsWs) [] hsdw
    rwa [List.append_nil] at h4
  unfold parseStructuredScript
  rw [if_neg hne1, if_neg hne2, htr1, htr2]

/-- Witness for C2: a concrete well-formed prefix followed by trailing
well-formed blocks after the terminal delimiter. -/
theorem parse_ignores_after_end_summary_witness :
    containsSeq endSummaryTok ("\"sentence\": \"Hi\" END_SENTENCE " : String).data = false ∧
      parseStructuredScript
          ("\"sentence\": \"Hi\" END_SENTENCE " ++ "END_SUMMARY" ++
            " \"sentence\": \"Bye\" END_SENTENCE") =
        parseStructuredScript ("\"sentence\": \"Hi\" END_SENTENCE " ++ "END_SUMMARY") :=
  ⟨by decide,
   parse_ignores_after_end_summary "\"sentence\": \"Hi\" END_SENTENCE "
     " \"sentence\": \"Bye\" END_SENTENCE" (by decide)⟩

/-- Counterexample to C3 as stated: on input
`"Hello there. END_SUMMARY World again."` no block yields a sentence match,
and the fallback output is not one entry per punctuation fragment of the raw
pre-truncation input (which would also contain `END_SUMMARY World again.`):
the code splits the trimmed, delimiter-truncated text instead. -/
theorem parse_fallback_not_raw :
    ("Hello there. END_SUMMARY World again." : String).data ≠ [] ∧
    structuredEntries (truncateAtEndSummary
      (trimChars ("Hello there. END_SUMMARY World again." : String).data)) = [] ∧
    parseStructuredScript "Hello there. END_SUMMARY World again." ≠
      (((splitFallback ("Hello there. END_SUMMARY World again." : String).data).map
          trimChars).filter (fun p => !p.isEmpty)).map (fun f => ⟨f, none⟩) :=
  ⟨by decide, by decide, by decide⟩

/-- C3 amended: for every non-empty input in which no block yields a
non-empty sentence match, `parseStructuredScript` returns one entry per
fragment obtained by splitting the trimmed input truncated at the first
`END_SUMMARY` (not the raw pre-truncation input) on whitespace immediately
following `.`, `!` or `?`, with each fragment trimmed, empty fragments
discarded, and every entry carrying a null action. -/
theorem parse_fallback_on_truncated (s : String) (h0 : s.data ≠ [])
    (h : structuredEntries (truncateAtEndSummary (trimChars s.data)) = []) :
    parseStructuredScript s =
      (((splitFallback (truncateAtEndSummary (trimChars s.data))).map
          trimChars).filter (fun p => !p.isEmpty)).map (fun f => ⟨f, none⟩) := by
  unfold parseStructuredScript
  rw [if_neg h0, if_pos h]
  rfl

/-- Witness for C3 (amended): the counterexample input evaluated through the
amended statement. -/
theorem parse_fallback_on_truncated_witness :
    ("Hello there. END_SUMMARY World again." : String).data ≠ [] ∧
      parseStructuredScript "Hello there. END_SUMMARY World again." =
        (((splitFallback (truncateAtEndSummary
            (trimChars ("Hello there. END_SUMMARY World again." : String).data))).map
              trimChars).filter (fun p => !p.isEmpty)).map (fun f => ⟨f, none⟩) :=
  ⟨by decide,
   parse_fallback_on_truncated "Hello there. END_SUMMARY World again."
     (by decide) (by decide)⟩

/-- A pattern case-insensitively starts every list it prefixes. -/
theorem startsWithCI_self_append (p x : List Char) :
    startsWithCI p (p ++ x) = true := by
  unfold startsWithCI lowerStr
  rw [List.map_append]
  exact List.isPrefixOf_iff_prefix.mpr (List.prefix_append _ _)

/-- Consuming the remaining delimiter characters through the discard counter
lands in the whitespace-skipping state. -/
theorem sdGo_discard :
    ∀ (d : List Char), d ≠ [] → ∀ (acc rest : List Char) (b : Bool),
      splitDelimGo acc d.length b (d ++ rest) = splitDelimGo acc 0 true rest := by
  intro d
  induction d with
  | nil => intro h; exact absurd rfl h
  | cons x d' ih =>
    intro _ acc rest b
    have hstep : splitDelimGo acc (x :: d').length b ((x :: d') ++ rest) =
        splitDelimGo acc d'.length (decide (d'.length = 0)) (d' ++ rest) := rfl
    rw [hstep]
    cases d' with
    | nil => simp
    | cons y d2 =>
      have hdec : decide ((y :: d2).length = 0) = false := by simp
      rw [hdec]
      exact ih (by simp) acc rest false

/-- The whitespace-skipping state consumes a whitespace run. -/
theorem sdGo_ws :
    ∀ (w : List Char), (∀ c ∈ w, isJsWs c = true) → ∀ (acc rest : List Char),
      splitDelimGo acc 0 true (w ++ rest) = splitDelimGo acc 0 true rest := by
  intro w
  induction w with
  | nil => intro _ acc rest; rfl
  | cons c w' ih =>
    intro h acc rest
    have hstep : splitDelimGo acc 0 true (c :: (w' ++ rest)) =
        if true && isJsWs c then splitDelimGo acc 0 true (w' ++ rest)
        else if startsWithCI endSentenceTok (c :: (w' ++ rest)) then
          acc.reverse :: splitDelimGo [] 11 false (w' ++ rest)
        else splitDelimGo (c :: acc) 0 false (w' ++ rest) := rfl
    rw [List.cons_append, hstep, h c (by simp)]
    simp only [Bool.and_true, if_true]
    exact ih (fun d hd => h d (by simp [hd])) acc rest

/-- Leaving the whitespace-skipping state on a non-whitespace head (or the
end of input) behaves like the plain scanning state. -/
theorem sdGo_exit_ws (acc : List Char) :
    ∀ (s : List Char), (s = [] ∨ ∃ c cs, s = c :: cs ∧ isJsWs c = false) →
      splitDelimGo acc 0 true s = splitDelimGo acc 0 false s := by
  intro s hs
  cases hs with
  | inl h => rw [h]; rfl
  | inr h =>
    obtain ⟨c, cs, rfl, hc⟩ := h
    have h1 : splitDelimGo acc 0 true (c :: cs) =
        if true && isJsWs c then splitDelimGo acc 0 true cs
        else if startsWithCI endSentenceTok (c :: cs) then
          acc.reverse :: splitDelimGo [] 11 false cs
        else splitDelimGo (c :: acc) 0 false cs := rfl
    have h2 : splitDelimGo acc 0 false (c :: cs) =
        if false && isJsWs c then splitDelimGo acc 0 true cs
        else if startsWithCI endSentenceTok (c :: cs) then
          acc.reverse :: splitDelimGo [] 11 false cs
        else splitDelimGo (c :: acc) 0 false cs := rfl
    rw [h1, h2, hc]
    simp

/-- The whitespace-skipping state is exactly a `dropWhile` on the remaining
input. -/
theorem sdGo_true_eq :
    ∀ (rest acc : List Char),
      splitDelimGo acc 0 true rest = splitDelimGo acc 0 false (rest.dropWhile isJsWs) := by
  intro rest
  induction rest with
  | nil => intro acc; rfl
  | cons c cs ih =>
    intro acc
    cases hc : isJsWs c with
    | true =>
      have hstep : splitDelimGo acc 0 true (c :: cs) =
          if true && isJsWs c then splitDelimGo acc 0 true cs
          else if startsWithCI endSentenceTok (c :: cs) then
            acc.reverse :: splitDelimGo [] 11 false cs
          else splitDelimGo (c :: acc) 0 false cs := rfl
      rw [hstep, hc]
      simp only [Bool.and_true, if_true]
      rw [ih acc, List.dropWhile_cons_of_pos hc]
    | false =>
      rw [List.dropWhile_cons_of_neg (by simp [hc])]
      exact sdGo_exit_ws acc (c :: cs) (Or.inr ⟨c, cs, rfl, hc⟩)

/-- Scanning a segment in which the per-block delimiter never starts only
moves the segment into the accumulator. -/
theorem sdGo_scan :
    ∀ (u acc rest : List Char),
      (∀ w, w ≠ [] → w <:+ u →
        startsWithCI endSentenceTok (w ++ rest) = false) →
      splitDelimGo acc 0 false (u ++ rest) =
        splitDelimGo (u.reverse ++ acc) 0 false rest := by
  intro u
  induction u with
  | nil => intro acc rest _; simp
  | cons c u' ih =>
    intro acc rest h
    have hstep : splitDelimGo acc 0 false (c :: (u' ++ rest)) =
        if startsWithCI endSentenceTok (c :: (u' ++ rest)) then
          acc.reverse :: splitDelimGo [] 11 false (u' ++ rest)
        else splitDelimGo (c :: acc) 0 false (u' ++ rest) := rfl
    have hf := h (c :: u') (by simp) (List.suffix_refl _)
    rw [List.cons_append] at hf
    rw [List.cons_append, hstep, hf]
    simp only [Bool.false_eq_true, if_false]
    rw [ih (c :: acc) rest
      (fun w hw hsuf => h w hw (hsuf.trans (List.suffix_cons c u')))]
    simp

/-- Scanning a final segment in which the delimiter never starts returns the
whole accumulated fragment. -/
theorem sdGo_last :
    ∀ (u acc : List Char),
      (∀ w, w ≠ [] → w <:+ u → startsWithCI endSentenceTok w = false) →
      splitDelimGo acc 0 false u = [acc.reverse ++ u] := by
  intro u
  induction u with
  | nil => intro acc _; simp [splitDelimGo]
  | cons c u' ih =>
    intro acc h
    have hstep : splitDelimGo acc 0 false (c :: u') =
        if startsWithCI endSentenceTok (c :: u') then
          acc.reverse :: splitDelimGo [] 11 false u'
        else splitDelimGo (c :: acc) 0 false u' := rfl
    rw [hstep, h (c :: u') (by simp) (List.suffix_refl _)]
    simp only [Bool.false_eq_true, if_false]
    rw [ih (c :: acc) (fun w hw hsuf => h w hw (hsuf.trans (List.suffix_cons c u')))]
    simp

/-- Emission step of the block split: a delimiter-free segment followed by
`END_SENTENCE` produces that segment and continues after the delimiter's
trailing whitespace. -/
theorem sdGo_emit (u acc rest : List Char)
    (h : ∀ w, w ≠ [] → w <:+ u →
      startsWithCI endSentenceTok (w ++ (endSentenceTok ++ rest)) = false) :
    splitDelimGo acc 0 false (u ++ (endSentenceTok ++ rest)) =
      (acc.reverse ++ u) :: splitDelimGo [] 0 false (rest.dropWhile isJsWs) := by
  rw [sdGo_scan u acc (endSentenceTok ++ rest) h]
  have hstep : splitDelimGo (u.reverse ++ acc) 0 false (endSentenceTok ++ rest) =
      if startsWithCI endSentenceTok (endSentenceTok ++ rest) then
        (u.reverse ++ acc).reverse ::
          splitDelimGo [] 11 false ("ND_SENTENCE".data ++ rest)
      else
        splitDelimGo ('E' :: (u.reverse ++ acc)) 0 false ("ND_SENTENCE".data ++ rest) := rfl
  rw [hstep, startsWithCI_self_append]
  simp only [if_true, List.reverse_append, List.reverse_reverse]
  rw [show (11 : Nat) = ("ND_SENTENCE".data).length from by decide]
  rw [sdGo_discard "ND_SENTENCE".data (by decide) [] rest false]
  rw [sdGo_true_eq rest []]

/-- Occurrence testing characterised by explicit decompositions. -/
theorem containsSeq_iff (pat : List Char) :
    ∀ (s : List Char), containsSeq pat s = true ↔ ∃ a b, s = a ++ pat ++ b := by
  intro s
  induction s with
  | nil =>
    simp only [containsSeq]
    constructor
    · intro h
      have hp : pat <+: ([] : List Char) := List.isPrefixOf_iff_prefix.mp h
      have : pat = [] := List.prefix_nil.mp hp
      exact ⟨[], [], by simp [this]⟩
    · intro ⟨a, b, hab⟩
      have := hab.symm
      rw [List.append_eq_nil] at this
      obtain ⟨h1, h2⟩ := this
      rw [List.append_eq_nil] at h1
      rw [List.isPrefixOf_iff_prefix, h1.2]
  | cons c cs ih =>
    simp only [containsSeq, Bool.or_eq_true]
    constructor
    · intro h
      cases h with
      | inl h =>
        obtain ⟨t, ht⟩ := List.isPrefixOf_iff_prefix.mp h
        exact ⟨[], t, by simp [← ht]⟩
      | inr h =>
        obtain ⟨a, b, hab⟩ := ih.mp h
        exact ⟨c :: a, b, by simp [hab]⟩
    · intro ⟨a, b, hab⟩
      cases a with
      | nil =>
        left
        rw [List.isPrefixOf_iff_prefix]
        rw [List.nil_append] at hab
        exact ⟨b, hab.symm⟩
      | cons x a2 =>
        right
        apply ih.mpr
        refine ⟨a2, b, ?_⟩
        have h3 := hab
        rw [List.cons_append, List.cons_append] at h3
        injection h3 with _ h2

/-- Occurrence testing is antitone on infixes. -/
theorem containsSeq_infix_mono {pat w s : List Char} (hws : w <:+: s)
    (h : containsSeq pat s = false) : containsSeq pat w = false := by
  by_contra hc
  rw [Bool.not_eq_false] at hc
  obtain ⟨a, b, rfl⟩ := (containsSeq_iff pat w).mp hc
  obtain ⟨x, y, rfl⟩ := hws
  have : containsSeq pat (x ++ (a ++ pat ++ b) ++ y) = true := by
    apply (containsSeq_iff pat _).mpr
    exact ⟨x ++ a, b ++ y, by simp [List.append_assoc]⟩
  rw [this] at h
  cases h

/-- A prefix occurrence at some suffix position is an occurrence. -/
theorem containsSeq_of_suffix_isPrefixOf {pat w s : List Char} (hws : w <:+ s)
    (h : pat.isPrefixOf w = true) : containsSeq pat s = true := by
  obtain ⟨p, rfl⟩ := hws
  obtain ⟨q, hq⟩ := List.isPrefixOf_iff_prefix.mp h
  apply (containsSeq_iff pat _).mpr
  exact ⟨p, q, by rw [← hq]; simp [List.append_assoc]⟩

/-- A prefix of an append is a prefix of the left part or extends it. -/
theorem isPrefixOf_append_split {p a b : List Char}
    (h : p.isPrefixOf (a ++ b) = true) :
    p.isPrefixOf a = true ∨ ∃ q, p = a ++ q ∧ q <+: b := by
  have hp := List.isPrefixOf_iff_prefix.mp h
  have htake := List.prefix_iff_eq_take.mp hp
  by_cases hle : p.length ≤ a.length
  · left
    rw [List.take_append_of_le_length hle] at htake
    rw [List.isPrefixOf_iff_prefix, htake]
    exact List.take_prefix _ _
  · right
    push_neg at hle
    rw [List.take_append_eq_append_take,
      List.take_of_length_le (Nat.le_of_lt hle)] at htake
    exact ⟨b.take (p.length - a.length), htake, List.take_prefix _ _⟩

/-- No occurrence can straddle a character missing from the pattern: an
occurrence-free left part and an occurrence-free right part joined by such a
character remain occurrence-free. -/
theorem containsSeq_append_single (pat : List Char) :
    ∀ (a : List Char) (c : Char) (b : List Char), c ∉ pat →
      containsSeq pat a = false → containsSeq pat b = false →
      containsSeq pat (a ++ c :: b) = false := by
  intro a
  induction a with
  | nil =>
    intro c b hc ha hb
    simp only [List.nil_append, containsSeq, Bool.or_eq_false_iff]
    refine ⟨?_, hb⟩
    by_contra hp
    rw [Bool.not_eq_false] at hp
    cases pat with
    | nil => simp [containsSeq] at ha
    | cons p0 pr =>
      have := List.isPrefixOf_iff_prefix.mp hp
      rw [List.cons_prefix_cons] at this
      exact hc (by simp [this.1])
  | cons x a2 ih =>
    intro c b hc ha hb
    simp only [containsSeq, Bool.or_eq_false_iff] at ha
    obtain ⟨hax, ha2⟩ := ha
    have htail : containsSeq pat (a2 ++ c :: b) = false := ih c b hc ha2 hb
    have hgoal : containsSeq pat ((x :: a2) ++ c :: b) =
        (pat.isPrefixOf ((x :: a2) ++ c :: b) || containsSeq pat (a2 ++ c :: b)) := rfl
    rw [hgoal, htail, Bool.or_false]
    by_contra hp
    rw [Bool.not_eq_false] at hp
    cases isPrefixOf_append_split hp with
    | inl h => rw [h] at hax; cases hax
    | inr h =>
      obtain ⟨q, hq, hqb⟩ := h
      cases q with
      | nil =>
        rw [List.append_nil] at hq
        have h4 : pat.isPrefixOf (x :: a2) = true := by
          rw [List.isPrefixOf_iff_prefix, hq]
        rw [h4] at hax
        cases hax
      | cons q0 qr =>
        obtain ⟨t, ht⟩ := hqb
        have hq0 : q0 = c := by
          rw [List.cons_append] at ht
          injection ht with h1 _
        apply hc
        rw [hq, hq0]
        simp

/-- A non-empty suffix of a list ending in `x` also ends in `x`. -/
theorem suffix_concat_last {w z : List Char} {x : Char}
    (hws : w <:+ z ++ [x]) (hne : w ≠ []) : ∃ w2, w = w2 ++ [x] := by
  obtain ⟨p, hp⟩ := hws
  have hlast : w.getLast? = some x := by
    have h1 : (p ++ w).getLast? = w.getLast? :=
      List.getLast?_append_of_ne_nil p hne
    rw [hp, List.getLast?_concat] at h1
    exact h1.symm
  rcases w.eq_nil_or_concat with rfl | ⟨w2, y, rfl⟩
  · exact absurd rfl hne
  · rw [List.concat_eq_append, List.getLast?_concat] at hlast
    injection hlast with h2
    exact ⟨w2, by simp [h2]⟩

/-- In a segment that ends with a space and has no case-insensitive
occurrence of the per-block delimiter, the delimiter cannot start at any
position, whatever follows the segment. -/
theorem noDelimStart_of_safe (content rest : List Char)
    (hci : containsCI endSentenceTok content = false)
    (hsp : ∃ z, content = z ++ [' ']) :
    ∀ w, w ≠ [] → w <:+ content →
      startsWithCI endSentenceTok (w ++ rest) = false := by
  intro w hne hws
  by_contra hcon
  rw [Bool.not_eq_false] at hcon
  unfold startsWithCI at hcon
  have hpre : lowerStr endSentenceTok <+: lowerStr (w ++ rest) :=
    List.isPrefixOf_iff_prefix.mp hcon
  have hmap : lowerStr (w ++ rest) = lowerStr w ++ lowerStr rest :=
    List.map_append _ _ _
  rw [hmap] at hpre
  have htake := List.prefix_iff_eq_take.mp hpre
  have hlen12 : (lowerStr endSentenceTok).length = 12 := by decide
  have hwlen : (lowerStr w).length = w.length := List.length_map _ _
  unfold containsCI at hci
  by_cases hge : 12 ≤ w.length
  · rw [hlen12, List.take_append_of_le_length (by rw [hwlen]; omega)] at htake
    have hp2 : (lowerStr endSentenceTok).isPrefixOf (lowerStr w) = true := by
      rw [List.isPrefixOf_iff_prefix, htake]
      exact List.take_prefix _ _
    have hsw : lowerStr w <:+ lowerStr content := hws.map _
    rw [containsSeq_of_suffix_isPrefixOf hsw hp2] at hci
    cases hci
  · push_neg at hge
    obtain ⟨z, rfl⟩ := hsp
    obtain ⟨w2, rfl⟩ := suffix_concat_last hws hne
    have hmem : ' ' ∈ lowerStr (w2 ++ [' ']) := by
      unfold lowerStr
      rw [List.map_append]
      exact List.mem_append_right _ (by simp [show Char.toLower ' ' = ' ' from rfl])
    rw [hlen12, List.take_append_eq_append_take,
      List.take_of_length_le (by rw [hwlen]; omega)] at htake
    have hsp2 : ' ' ∈ lowerStr endSentenceTok := by
      rw [htake]
      exact List.mem_append_left _ hmem
    revert hsp2
    decide

/-- Quoted-value composition rule: fixed markup, a safe value between two
quotes and a safe tail cannot produce an occurrence of a quote-free pattern. -/
theorem nc_quoted (pat : List Char) (hq : '"' ∉ pat) (pre val tail : List Char)
    (hpre : containsSeq pat pre = false) (hval : containsSeq pat val = false)
    (htail : containsSeq pat tail = false) :
    containsSeq pat (pre ++ '"' :: (val ++ '"' :: tail)) = false :=
  containsSeq_append_single pat pre '"' (val ++ '"' :: tail) hq hpre
    (containsSeq_append_single pat val '"' tail hq hval htail)

/-- The decomposed shape of a block without an action field. -/
theorem blockContent_decomp_none (e : ScriptEntry) (h : e.action = none) :
    blockContent e =
      ['"', 's', 'e', 'n', 't', 'e', 'n', 'c', 'e', '"', ':', ' '] ++
        '"' :: (e.sentence ++ '"' :: [' ']) := by
  simp [blockContent, sentenceKey, h]

/-- The decomposed shape of a block with an action field. -/
theorem blockContent_decomp_some (e : ScriptEntry) (a : List Char)
    (h : e.action = some a) :
    blockContent e =
      ['"', 's', 'e', 'n', 't', 'e', 'n', 'c', 'e', '"', ':', ' '] ++
        '"' :: (e.sentence ++
          '"' :: ((' ' :: ['"', 'a', 'c', 't', 'i', 'o', 'n', '"', ':', ' ']) ++
            '"' :: (a ++ '"' :: [' ']))) := by
  simp [blockContent, sentenceKey, actionKey, h]

/-- A well-formed block's content contains no occurrence of `END_SUMMARY`. -/
theorem blockContent_no_endSummary (e : ScriptEntry) (h : entryWF e) :
    containsSeq endSummaryTok (blockContent e) = false := by
  obtain ⟨⟨-, -, hs⟩, hact⟩ := h
  cases ha : e.action with
  | none =>
    rw [blockContent_decomp_none e ha]
    exact nc_quoted _ (by decide) _ _ _ (by decide) hs (by decide)
  | some a =>
    obtain ⟨-, -, hsa⟩ := hact a ha
    rw [blockContent_decomp_some e a ha]
    exact nc_quoted _ (by decide) _ _ _ (by decide) hs
      (nc_quoted _ (by decide) _ _ _ (by decide) hsa (by decide))

/-- Case-insensitive quoted-value composition rule. -/
theorem nc_quoted_ci (pat : List Char) (hq : '"' ∉ lowerStr pat)
    (pre val tail : List Char)
    (hpre : containsSeq (lowerStr pat) (lowerStr pre) = false)
    (hval : containsCI pat val = false)
    (htail : containsSeq (lowerStr pat) (lowerStr tail) = false) :
    containsCI pat (pre ++ '"' :: (val ++ '"' :: tail)) = false := by
  unfold containsCI at hval ⊢
  have hdist : lowerStr (pre ++ '"' :: (val ++ '"' :: tail)) =
      lowerStr pre ++ '"' :: (lowerStr val ++ '"' :: lowerStr tail) := by
    unfold lowerStr
    simp [List.map_append, List.map_cons, show Char.toLower '"' = '"' from rfl]
  rw [hdist]
  exact nc_quoted _ hq _ _ _ hpre hval htail

/-- A well-formed block's content contains no case-insensitive occurrence of
`END_SENTENCE`. -/
theorem blockContent_no_ci_delim (e : ScriptEntry) (h : entryWF e) :
    containsCI endSentenceTok (blockContent e) = false := by
  obtain ⟨⟨-, hsci, -⟩, hact⟩ := h
  cases ha : e.action with
  | none =>
    rw [blockContent_decomp_none e ha]
    exact nc_quoted_ci _ (by decide) _ _ _ (by decide) hsci (by decide)
  | some a =>
    obtain ⟨-, haci, -⟩ := hact a ha
    rw [blockContent_decomp_some e a ha]
    apply nc_quoted_ci _ (by decide) _ _ _ (by decide) hsci
    have hinner : containsCI endSentenceTok
        ((' ' :: ['"', 'a', 'c', 't', 'i', 'o', 'n', '"', ':', ' ']) ++
          '"' :: (a ++ '"' :: [' '])) = false :=
      nc_quoted_ci _ (by decide) _ _ _ (by decide) haci (by decide)
    unfold containsCI at hinner
    exact hinner

/-- A block's content always ends with a space. -/
theorem blockContent_ends_space (e : ScriptEntry) :
    ∃ z, blockContent e = z ++ [' '] := by
  cases ha : e.action with
  | none =>
    refine ⟨['"', 's', 'e', 'n', 't', 'e', 'n', 'c', 'e', '"', ':', ' '] ++
      '"' :: (e.sentence ++ ['"']), ?_⟩
    rw [blockContent_decomp_none e ha]
    simp
  | some a =>
    refine ⟨['"', 's', 'e', 'n', 't', 'e', 'n', 'c', 'e', '"', ':', ' '] ++
      '"' :: (e.sentence ++
        '"' :: ((' ' :: ['"', 'a', 'c', 't', 'i', 'o', 'n', '"', ':', ' ']) ++
          '"' :: (a ++ ['"']))), ?_⟩
    rw [blockContent_decomp_some e a ha]
    simp

/-- A block's content is its trimmed form followed by one space. -/
theorem blockContent_eq_trim_space (e : ScriptEntry) :
    blockContent e = blockContentTrim e ++ [' '] := by
  cases ha : e.action with
  | none => simp [blockContent, blockContentTrim, ha]
  | some a => simp [blockContent, blockContentTrim, ha]

/-- Trimming a fragment of the shape `"..." ` removes exactly the trailing
space. -/
theorem trim_quoted_space (mid : List Char) :
    trimChars (('"' :: mid ++ ['"']) ++ [' ']) = '"' :: mid ++ ['"'] := by
  unfold trimChars
  rw [show ('"' :: mid ++ ['"']) ++ [' '] = '"' :: ((mid ++ ['"']) ++ [' ']) from by simp]
  rw [List.dropWhile_cons_of_neg (by decide)]
  rw [show ('"' :: ((mid ++ ['"']) ++ [' '])).reverse
      = ' ' :: ('"' :: (mid.reverse ++ ['"'])) from by simp]
  rw [List.dropWhile_cons_of_pos (by decide)]
  rw [List.dropWhile_cons_of_neg (by decide)]
  rw [show ('"' :: (mid.reverse ++ ['"'])).reverse = '"' :: mid ++ ['"'] from by simp]

/-- The trimmed form of a block without an action, in quoted shape. -/
theorem blockContentTrim_shape_none (e : ScriptEntry) (h : e.action = none) :
    blockContentTrim e =
      '"' :: (['s', 'e', 'n', 't', 'e', 'n', 'c', 'e', '"', ':', ' ', '"'] ++
        e.sentence) ++ ['"'] := by
  simp [blockContentTrim, sentenceKey, h]

/-- The trimmed form of a block with an action, in quoted shape. -/
theorem blockContentTrim_shape_some (e : ScriptEntry) (a : List Char)
    (h : e.action = some a) :
    blockContentTrim e =
      '"' :: (['s', 'e', 'n', 't', 'e', 'n', 'c', 'e', '"', ':', ' ', '"'] ++
        e.sentence ++ ['"'] ++
        (' ' :: ['"', 'a', 'c', 't', 'i', 'o', 'n', '"', ':', ' ', '"']) ++ a) ++ ['"'] := by
  simp [blockContentTrim, sentenceKey, actionKey, h]

/-- Trimming a block's raw content yields its trimmed form. -/
theorem trimChars_blockContent (e : ScriptEntry) :
    trimChars (blockContent e) = blockContentTrim e := by
  rw [blockContent_eq_trim_space]
  cases ha : e.action with
  | none =>
    rw [blockContentTrim_shape_none e ha]
    exact trim_quoted_space _
  | some a =>
    rw [blockContentTrim_shape_some e a ha]
    exact trim_quoted_space _

/-- A failing head position advances the leftmost-match scan. -/
theorem findField_step (label : List Char) (c : Char) (cs : List Char)
    (h : matchFieldAt label (c :: cs) = none) :
    findField label (c :: cs) = findField label cs := by
  have h1 : findField label (c :: cs) =
      match matchFieldAt label (c :: cs) with
      | some v => some v
      | none => findField label cs := rfl
  rw [h1, h]

/-- A successful head position ends the leftmost-match scan. -/
theorem findField_cons_found (label : List Char) (c : Char) (cs v : List Char)
    (h : matchFieldAt label (c :: cs) = some v) :
    findField label (c :: cs) = some v := by
  have h1 : findField label (c :: cs) =
      match matchFieldAt label (c :: cs) with
      | some v => some v
      | none => findField label cs := rfl
  rw [h1, h]

/-- Evaluation of the literal-character step on a cons. -/
theorem expectChar_cons (x c : Char) (cs : List Char) :
    expectChar x (c :: cs) = if c = x then some cs else none := rfl

/-- A position whose head is not a double quote never matches the field
pattern. -/
theorem matchFieldAt_nonquote (label : List Char) (c : Char) (cs : List Char)
    (h : ¬ c = '"') : matchFieldAt label (c :: cs) = none := by
  have h1 : matchFieldAt label (c :: cs) =
      (expectChar '"' (c :: cs)).bind fun s1 =>
      (expectCI label s1).bind fun s2 =>
      (expectChar '"' s2).bind fun s3 =>
      (expectChar ':' (skipWs s3)).bind fun s4 =>
      (expectChar '"' (skipWs s4)).bind fun s5 =>
      captureString s5 := rfl
  rw [h1, expectChar_cons, if_neg h]
  rfl

/-- Advancing over a non-quote character. -/
theorem findField_step_nonquote (label : List Char) (c : Char) (cs : List Char)
    (h : ¬ c = '"') : findField label (c :: cs) = findField label cs :=
  findField_step label c cs (matchFieldAt_nonquote label c cs h)

/-- Scanning positions inside a quote-free value finds nothing before the
value's closing quote. -/
theorem findField_in_val (label : List Char) :
    ∀ (S tail : List Char), '"' ∉ S →
      findField label (S ++ '"' :: tail) = findField label ('"' :: tail) := by
  intro S
  induction S with
  | nil => intro tail _; rfl
  | cons c S2 ih =>
    intro tail hS
    rw [List.cons_append]
    rw [findField_step_nonquote label c _ (fun hc => hS (by simp [hc]))]
    exact ih tail (fun hc => hS (by simp [hc]))

/-- The capture `([^"]*)"` of a quote-free value. -/
theorem captureString_closed :
    ∀ (S r : List Char), '"' ∉ S →
      captureString (S ++ '"' :: r) = some S := by
  intro S
  induction S with
  | nil => intro r _; simp [captureString]
  | cons c S2 ih =>
    intro r hS
    rw [List.cons_append]
    unfold captureString
    rw [if_neg (fun hc => hS (by simp [hc])), ih r (fun hc => hS (by simp [hc]))]
    rfl

/-- The sentence-field pattern anchored at the sentence markup captures
exactly the quote-free value. -/
theorem matchFieldAt_sentence (S r : List Char) (hS : '"' ∉ S) :
    matchFieldAt sentenceLabel (sentenceKey ++ (S ++ '"' :: r)) = some S := by
  have h1 : matchFieldAt sentenceLabel (sentenceKey ++ (S ++ '"' :: r)) =
      captureString (S ++ '"' :: r) := rfl
  rw [h1, captureString_closed S r hS]

/-- The action-field pattern anchored at the action markup captures exactly
the quote-free value. -/
theorem matchFieldAt_action (A r : List Char) (hA : '"' ∉ A) :
    matchFieldAt actionLabel (actionKey ++ (A ++ '"' :: r)) = some A := by
  have h1 : matchFieldAt actionLabel (actionKey ++ (A ++ '"' :: r)) =
      captureString (A ++ '"' :: r) := rfl
  rw [h1, captureString_closed A r hA]

/-- The sentence field of a candidate block is found at its first position. -/
theorem findField_sentence (S r : List Char) (hS : '"' ∉ S) :
    findField sentenceLabel (sentenceKey ++ (S ++ '"' :: r)) = some S :=
  findField_cons_found sentenceLabel '"'
    (['s', 'e', 'n', 't', 'e', 'n', 'c', 'e', '"', ':', ' ', '"'] ++ (S ++ '"' :: r)) S
    (matchFieldAt_sentence S r hS)

/-- Splitting of the label-matching step over a quote-free value: the match
either fails, consumes the value exactly, or stops inside the value. -/
theorem expectCI_val (t : List Char) :
    ∀ (label S : List Char), '"' ∉ S → (∀ c ∈ label, Char.toLower c ≠ '"') →
      expectCI label (S ++ '"' :: t) = none ∨
      expectCI label (S ++ '"' :: t) = some ('"' :: t) ∨
      ∃ d r, expectCI label (S ++ '"' :: t) = some (d :: r) ∧ d ∈ S := by
  intro label
  induction label with
  | nil =>
    intro S hS _
    cases S with
    | nil => right; left; rfl
    | cons d S2 =>
      right; right
      exact ⟨d, S2 ++ '"' :: t, rfl, by simp⟩
  | cons l ls ih =>
    intro S hS hlab
    cases S with
    | nil =>
      left
      have hne : ¬ Char.toLower '"' = Char.toLower l := by
        intro hc
        exact hlab l (by simp) (by rw [← hc]; rfl)
      have hstep : expectCI (l :: ls) ('"' :: t) =
          if Char.toLower '"' = Char.toLower l then expectCI ls t else none := rfl
      rw [List.nil_append, hstep, if_neg hne]
    | cons s0 S2 =>
      by_cases he : Char.toLower s0 = Char.toLower l
      · have hrec := ih S2 (fun hc => hS (by simp [hc]))
          (fun c hc => hlab c (by simp [hc]))
        have hstep : expectCI (l :: ls) ((s0 :: S2) ++ '"' :: t) =
            if Char.toLower s0 = Char.toLower l then expectCI ls (S2 ++ '"' :: t)
            else none := rfl
        rw [hstep, if_pos he]
        rcases hrec with h | h | ⟨d, r, hd, hdm⟩
        · left; exact h
        · right; left; exact h
        · right; right; exact ⟨d, r, hd, by simp [hdm]⟩
      · left
        have hstep : expectCI (l :: ls) ((s0 :: S2) ++ '"' :: t) =
            if Char.toLower s0 = Char.toLower l then expectCI ls (S2 ++ '"' :: t)
            else none := rfl
        rw [hstep, if_neg he]

/-- The action-field pattern cannot match at a value-opening quote: after the
value's closing quote the next significant character is never a colon. -/
theorem matchFieldAt_val_none (S t : List Char) (hS : '"' ∉ S)
    (ht : expectChar ':' (skipWs t) = none) :
    matchFieldAt actionLabel ('"' :: (S ++ '"' :: t)) = none := by
  have hlab : ∀ c ∈ actionLabel, Char.toLower c ≠ '"' := by decide
  have h1 : matchFieldAt actionLabel ('"' :: (S ++ '"' :: t)) =
      (expectCI actionLabel (S ++ '"' :: t)).bind fun s2 =>
      (expectChar '"' s2).bind fun s3 =>
      (expectChar ':' (skipWs s3)).bind fun s4 =>
      (expectChar '"' (skipWs s4)).bind fun s5 =>
      captureString s5 := rfl
  rw [h1]
  rcases expectCI_val t actionLabel S hS hlab with h | h | ⟨d, r, hd, hdm⟩
  · rw [h]; rfl
  · rw [h]
    have h2 : ((some ('"' :: t)).bind fun s2 =>
        (expectChar '"' s2).bind fun s3 =>
        (expectChar ':' (skipWs s3)).bind fun s4 =>
        (expectChar '"' (skipWs s4)).bind fun s5 =>
        captureString s5) =
        (expectChar ':' (skipWs t)).bind fun s4 =>
        (expectChar '"' (skipWs s4)).bind fun s5 =>
        captureString s5 := rfl
    rw [h2, ht]
    rfl
  · rw [hd]
    have hd2 : ¬ d = '"' := fun hc => hS (hc ▸ hdm)
    have h3 : ((some (d :: r)).bind fun s2 =>
        (expectChar '"' s2).bind fun s3 =>
        (expectChar ':' (skipWs s3)).bind fun s4 =>
        (expectChar '"' (skipWs s4)).bind fun s5 =>
        captureString s5) =
        (expectChar '"' (d :: r)).bind fun s3 =>
        (expectChar ':' (skipWs s3)).bind fun s4 =>
        (expectChar '"' (skipWs s4)).bind fun s5 =>
        captureString s5 := rfl
    rw [h3, expectChar_cons, if_neg hd2]
    rfl

/-- The action-field scan passes over the whole sentence markup. -/
theorem findField_skip13 (X : List Char) :
    findField actionLabel (sentenceKey ++ X) = findField actionLabel ('"' :: X) := by
  show findField actionLabel
      ('"' :: 's' :: 'e' :: 'n' :: 't' :: 'e' :: 'n' :: 'c' :: 'e' :: '"' ::
        ':' :: ' ' :: '"' :: X) =
    findField actionLabel ('"' :: X)
  rw [findField_step _ _ _ (by rfl)]
  rw [findField_step_nonquote _ _ _ (by decide)]
  rw [findField_step_nonquote _ _ _ (by decide)]
  rw [findField_step_nonquote _ _ _ (by decide)]
  rw [findField_step_nonquote _ _ _ (by decide)]
  rw [findField_step_nonquote _ _ _ (by decide)]
  rw [findField_step_nonquote _ _ _ (by decide)]
  rw [findField_step_nonquote _ _ _ (by decide)]
  rw [findField_step_nonquote _ _ _ (by decide)]
  rw [findField_step _ _ _ (by rfl)]
  rw [findField_step_nonquote _ _ _ (by decide)]
  rw [findField_step_nonquote _ _ _ (by decide)]

/-- A block without an action field yields no action capture. -/
theorem findField_action_trim_none (e : ScriptEntry) (hS : '"' ∉ e.sentence)
    (h : e.action = none) :
    findField actionLabel (blockContentTrim e) = none := by
  have hshape : blockContentTrim e = sentenceKey ++ (e.sentence ++ '"' :: []) := by
    simp [blockContentTrim, h]
  rw [hshape, findField_skip13]
  rw [findField_step _ _ _ (matchFieldAt_val_none e.sentence [] hS (by rfl))]
  rw [findField_in_val actionLabel e.sentence [] hS]
  decide

/-- A block with an action field yields exactly its action capture. -/
theorem findField_action_trim_some (e : ScriptEntry) (a : List Char)
    (hS : '"' ∉ e.sentence) (hA : '"' ∉ a) (h : e.action = some a) :
    findField actionLabel (blockContentTrim e) = some a := by
  have hshape : blockContentTrim e =
      sentenceKey ++ (e.sentence ++ '"' :: (' ' :: (actionKey ++ (a ++ '"' :: [])))) := by
    simp [blockContentTrim, h, actionKey, sentenceKey]
  rw [hshape, findField_skip13]
  rw [findField_step _ _ _
    (matchFieldAt_val_none e.sentence (' ' :: (actionKey ++ (a ++ '"' :: []))) hS (by rfl))]
  rw [findField_in_val actionLabel e.sentence _ hS]
  rw [findField_step _ _ _ (by rfl)]
  rw [findField_step_nonquote _ _ _ (by decide)]
  exact findField_cons_found actionLabel '"'
    (['a', 'c', 't', 'i', 'o', 'n', '"', ':', ' ', '"'] ++ (a ++ '"' :: [])) a
    (matchFieldAt_action a [] hA)

/-- Field extraction on a well-formed block's trimmed content returns the
block's own entry, unless its sentence value is empty, in which case the
block is dropped. -/
theorem extractEntry_blockContentTrim : ∀ (e : ScriptEntry), entryWF e →
    extractEntry (blockContentTrim e) =
      if e.sentence.isEmpty then none else some e := by
  intro e h
  obtain ⟨⟨hSq, -, -⟩, hact⟩ := h
  cases e with
  | mk s act =>
    cases act with
    | none =>
      have hshape : blockContentTrim ⟨s, none⟩ = sentenceKey ++ (s ++ '"' :: []) := by
        simp [blockContentTrim]
      have hsent : findField sentenceLabel (blockContentTrim ⟨s, none⟩) = some s := by
        rw [hshape]
        exact findField_sentence s [] hSq
      have hactf : findField actionLabel (blockContentTrim ⟨s, none⟩) = none :=
        findField_action_trim_none ⟨s, none⟩ hSq rfl
      have h1 : extractEntry (blockContentTrim ⟨s, none⟩) =
          match findField sentenceLabel (blockContentTrim ⟨s, none⟩) with
          | some v => if v.isEmpty then none
              else some ⟨v, findField actionLabel (blockContentTrim ⟨s, none⟩)⟩
          | none => none := rfl
      rw [h1, hsent]
      simp only [hactf]
    | some a =>
      have hAq : '"' ∉ a := (hact a rfl).1
      have hshape : blockContentTrim ⟨s, some a⟩ =
          sentenceKey ++ (s ++ '"' :: (' ' :: (actionKey ++ (a ++ '"' :: [])))) := by
        simp [blockContentTrim, actionKey, sentenceKey]
      have hsent : findField sentenceLabel (blockContentTrim ⟨s, some a⟩) = some s := by
        rw [hshape]
        exact findField_sentence s _ hSq
      have hactf : findField actionLabel (blockContentTrim ⟨s, some a⟩) = some a :=
        findField_action_trim_some ⟨s, some a⟩ a hSq hAq rfl
      have h1 : extractEntry (blockContentTrim ⟨s, some a⟩) =
          match findField sentenceLabel (blockContentTrim ⟨s, some a⟩) with
          | some v => if v.isEmpty then none
              else some ⟨v, findField actionLabel (blockContentTrim ⟨s, some a⟩)⟩
          | none => none := rfl
      rw [h1, hsent]
      simp only [hactf]

/-- A block's content starts with a double quote. -/
theorem blockContent_head (e : ScriptEntry) : ∃ t, blockContent e = '"' :: t := by
  cases ha : e.action with
  | none =>
    rw [blockContent_decomp_none e ha]
    exact ⟨_, rfl⟩
  | some a =>
    rw [blockContent_decomp_some e a ha]
    exact ⟨_, rfl⟩

/-- A rendered block starts with a double quote. -/
theorem renderBlock_head (e : ScriptEntry) : ∃ t, renderBlock e = '"' :: t := by
  obtain ⟨t, ht⟩ := blockContent_head e
  refine ⟨t ++ endSentenceTok ++ [' '], ?_⟩
  show blockContent e ++ endSentenceTok ++ [' '] = _
  rw [ht]
  simp

/-- A non-empty rendered block sequence starts with a double quote. -/
theorem flatten_head (e : ScriptEntry) (rest : List ScriptEntry) :
    ∃ t, ((e :: rest).map renderBlock).flatten = '"' :: t := by
  obtain ⟨t, ht⟩ := renderBlock_head e
  refine ⟨t ++ (rest.map renderBlock).flatten, ?_⟩
  show renderBlock e ++ (rest.map renderBlock).flatten = _
  rw [ht]
  rfl

/-- The concatenation of well-formed rendered blocks contains no occurrence
of the terminal delimiter. -/
theorem flatten_no_endSummary :
    ∀ (bs : List ScriptEntry), (∀ e ∈ bs, entryWF e) →
      containsSeq endSummaryTok ((bs.map renderBlock).flatten) = false := by
  intro bs
  induction bs with
  | nil =>
    intro h2
    decide
  | cons e rest ih =>
    intro h
    have he := h e (List.mem_cons_self e rest)
    have hrest := ih (fun x hx => h x (List.mem_cons_of_mem e hx))
    obtain ⟨z, hz⟩ := blockContent_ends_space e
    have hzc : containsSeq endSummaryTok z = false := by
      refine containsSeq_infix_mono ⟨[], [' '], ?_⟩ (blockContent_no_endSummary e he)
      rw [hz]
      simp
    have hshape : (((e :: rest).map renderBlock).flatten) =
        (z ++ ' ' :: endSentenceTok) ++ ' ' :: ((rest.map renderBlock).flatten) := by
      show renderBlock e ++ (rest.map renderBlock).flatten = _
      rw [show renderBlock e = blockContent e ++ endSentenceTok ++ [' '] from rfl, hz]
      simp
    rw [hshape]
    have hleft : containsSeq endSummaryTok (z ++ ' ' :: endSentenceTok) = false :=
      containsSeq_append_single endSummaryTok z ' ' endSentenceTok (by decide) hzc
        (by decide)
    exact containsSeq_append_single endSummaryTok (z ++ ' ' :: endSentenceTok) ' '
      ((rest.map renderBlock).flatten) (by decide) hleft hrest

/-- Splitting a concatenation of well-formed rendered blocks on the
per-block delimiter yields exactly the block contents, followed by one empty
trailing piece. -/
theorem splitDelim_flatten :
    ∀ (bs : List ScriptEntry), (∀ e ∈ bs, entryWF e) →
      splitDelimGo [] 0 false ((bs.map renderBlock).flatten) =
        bs.map blockContent ++ [[]] := by
  intro bs
  induction bs with
  | nil =>
    intro h2
    rfl
  | cons e rest ih =>
    intro h
    have he := h e (List.mem_cons_self e rest)
    have hshape : (((e :: rest).map renderBlock).flatten) =
        blockContent e ++ (endSentenceTok ++ ' ' :: ((rest.map renderBlock).flatten)) := by
      show renderBlock e ++ (rest.map renderBlock).flatten = _
      rw [show renderBlock e = blockContent e ++ endSentenceTok ++ [' '] from rfl]
      simp
    rw [hshape]
    rw [sdGo_emit (blockContent e) [] (' ' :: ((rest.map renderBlock).flatten))
      (noDelimStart_of_safe (blockContent e) _ (blockContent_no_ci_delim e he)
        (blockContent_ends_space e))]
    rw [List.reverse_nil, List.nil_append]
    rw [show ((' ' :: ((rest.map renderBlock).flatten)).dropWhile isJsWs)
        = ((rest.map renderBlock).flatten).dropWhile isJsWs from
      List.dropWhile_cons_of_pos (by decide)]
    cases rest with
    | nil => rfl
    | cons e2 rest2 =>
      obtain ⟨t2, ht2⟩ := flatten_head e2 rest2
      rw [ht2, List.dropWhile_cons_of_neg (by decide), ← ht2]
      rw [ih (fun x hx => h x (List.mem_cons_of_mem e hx))]
      rfl

/-- The trimmed content of a block is never empty. -/
theorem blockContentTrim_ne_nil (e : ScriptEntry) : blockContentTrim e ≠ [] := by
  cases ha : e.action with
  | none =>
    rw [blockContentTrim_shape_none e ha]
    simp
  | some a =>
    rw [blockContentTrim_shape_some e a ha]
    simp

/-- Keeping exactly the elements not rejected by a test is filtering on its
negation. -/
theorem filterMap_isEmpty_filter :
    ∀ (l : List ScriptEntry),
      l.filterMap (fun x => if x.sentence.isEmpty then none else some x)
        = l.filter (fun x => !x.sentence.isEmpty) := by
  intro l
  induction l with
  | nil => rfl
  | cons x xs ih =>
    cases hx : x.sentence.isEmpty with
    | true =>
      have hx2 : x.sentence = [] := List.isEmpty_iff.mp hx
      simp only [List.isEmpty_iff] at ih
      simp [List.filterMap_cons, List.filter_cons, hx, hx2, ih]
    | false =>
      have hx2 : ¬ x.sentence = [] := by
        intro hcon
        rw [List.isEmpty_iff.mpr hcon] at hx
        cases hx
      simp only [List.isEmpty_iff] at ih
      simp [List.filterMap_cons, List.filter_cons, hx, hx2, ih]

/-- A rendered script is never the empty character list. -/
theorem renderScript_ne_nil (bs : List ScriptEntry) : renderScript bs ≠ [] := by
  intro hcon
  have h2 : (bs.map renderBlock).flatten ++ endSummaryTok = [] := hcon
  rw [List.append_eq_nil] at h2
  exact absurd h2.2 (by decide)

/-- Structured extraction on a rendered sequence of well-formed blocks
returns exactly the blocks whose sentence value is non-empty, in order. -/
theorem structuredEntries_render :
    ∀ (bs : List ScriptEntry), (∀ e ∈ bs, entryWF e) →
      structuredEntries (truncateAtEndSummary (trimChars (renderScript bs))) =
        bs.filter (fun e => !e.sentence.isEmpty) := by
  intro bs h
  cases bs with
  | nil => decide
  | cons e rest =>
    obtain ⟨tfl, htfl⟩ := flatten_head e rest
    have htrim : trimChars (renderScript (e :: rest)) =
        ((e :: rest).map renderBlock).flatten ++ endSummaryTok := by
      show trimChars (((e :: rest).map renderBlock).flatten ++ endSummaryTok) = _
      rw [show ((e :: rest).map renderBlock).flatten ++ endSummaryTok
          = ((e :: rest).map renderBlock).flatten ++ endSummaryTok ++ ([] : List Char) from
        (List.append_nil _).symm]
      rw [trimChars_sandwich]
      rw [htfl, List.dropWhile_cons_of_neg (by decide), ← htfl]
      simp
    have htrunc : truncateAtEndSummary (trimChars (renderScript (e :: rest))) =
        ((e :: rest).map renderBlock).flatten := by
      rw [htrim]
      have h2 := truncate_sandwich (((e :: rest).map renderBlock).flatten) []
        (flatten_no_endSummary (e :: rest) h)
      rwa [List.append_nil] at h2
    rw [htrunc]
    have hse : structuredEntries (((e :: rest).map renderBlock).flatten) =
        ((((splitDelimGo [] 0 false (((e :: rest).map renderBlock).flatten)).map
          trimChars).filter (fun p => !p.isEmpty)).filterMap extractEntry) := rfl
    rw [hse, splitDelim_flatten (e :: rest) h]
    rw [List.map_append, List.filter_append]
    rw [show List.filter (fun p => !p.isEmpty) (List.map trimChars [([] : List Char)])
        = [] from by decide]
    rw [List.append_nil, List.map_map]
    have hmap2 : List.map (trimChars ∘ blockContent) (e :: rest)
        = List.map blockContentTrim (e :: rest) :=
      List.map_congr_left (fun x _ => trimChars_blockContent x)
    rw [hmap2]
    have hne2 : ∀ p ∈ List.map blockContentTrim (e :: rest), (!p.isEmpty) = true := by
      intro p hp
      obtain ⟨x, hx, rfl⟩ := List.mem_map.mp hp
      have h3 := blockContentTrim_ne_nil x
      simp [List.isEmpty_iff, h3]
    rw [List.filter_eq_self.mpr hne2]
    rw [List.filterMap_map]
    have hfm : List.filterMap (extractEntry ∘ blockContentTrim) (e :: rest)
        = List.filterMap (fun x => if x.sentence.isEmpty then none else some x)
          (e :: rest) :=
      List.filterMap_congr (fun x hx => extractEntry_blockContentTrim x (h x hx))
    rw [hfm]
    exact filterMap_isEmpty_filter (e :: rest)

/-- C1: for every model output consisting of well-formed blocks — each with
a non-empty quoted sentence value, an optional action field and the
`END_SENTENCE` delimiter, the whole message closed by `END_SUMMARY` —
`parseStructuredScript` returns exactly one entry per block, in the blocks'
original order (the rendered block list itself). -/
theorem parse_wellformed_blocks (bs : List ScriptEntry)
    (hwf : ∀ e ∈ bs, entryWF e) (hne : ∀ e ∈ bs, e.sentence ≠ []) :
    parseStructuredScript (String.mk (renderScript bs)) = bs := by
  cases bs with
  | nil => decide
  | cons e rest =>
    have hfil : (e :: rest).filter (fun x => !x.sentence.isEmpty) = e :: rest :=
      List.filter_eq_self.mpr (fun a ha => by
        simp [List.isEmpty_iff, hne a ha])
    have hstruct := structuredEntries_render (e :: rest) hwf
    rw [hfil] at hstruct
    have hmk : parseStructuredScript (String.mk (renderScript (e :: rest))) =
        if renderScript (e :: rest) = [] then []
        else if structuredEntries (truncateAtEndSummary (trimChars
            (renderScript (e :: rest)))) = [] then
          fallbackEntries (truncateAtEndSummary (trimChars (renderScript (e :: rest))))
        else structuredEntries (truncateAtEndSummary (trimChars
          (renderScript (e :: rest)))) := rfl
    rw [hmk, if_neg (renderScript_ne_nil (e :: rest)), hstruct,
      if_neg (List.cons_ne_nil e rest)]

theorem parse_wellformed_blocks_witness :
    (∀ e ∈ ([⟨"Hello world".data, some "happy".data⟩, ⟨"Bye".data, none⟩] :
        List ScriptEntry), entryWF e) ∧
    (∀ e ∈ ([⟨"Hello world".data, some "happy".data⟩, ⟨"Bye".data, none⟩] :
        List ScriptEntry), e.sentence ≠ []) ∧
    parseStructuredScript (String.mk (renderScript
        [⟨"Hello world".data, some "happy".data⟩, ⟨"Bye".data, none⟩])) =
      [⟨"Hello world".data, some "happy".data⟩, ⟨"Bye".data, none⟩] :=
  ⟨by decide, by decide, parse_wellformed_blocks _ (by decide) (by decide)⟩

/-- C7: a block whose sentence field matches with an empty captured value
contributes no entry: field extraction drops any candidate block whose
matched sentence value is empty, and removing a well-formed empty-sentence
block from a rendered script leaves the parse result unchanged (when some
other block has a non-empty sentence, so that structured extraction, where
blocks exist, is the branch taken). -/
theorem parse_drops_empty_sentence_block
    (bs1 bs2 : List ScriptEntry) (e0 : ScriptEntry)
    (hwf : ∀ e ∈ bs1 ++ e0 :: bs2, entryWF e)
    (h0 : e0.sentence = [])
    (hex : ∃ e ∈ bs1 ++ bs2, e.sentence ≠ []) :
    (∀ part, findField sentenceLabel part = some [] → extractEntry part = none) ∧
    parseStructuredScript (String.mk (renderScript (bs1 ++ e0 :: bs2))) =
      parseStructuredScript (String.mk (renderScript (bs1 ++ bs2))) := by
  constructor
  · intro part hp
    have h1 : extractEntry part =
        match findField sentenceLabel part with
        | some s => if s.isEmpty then none else some ⟨s, findField actionLabel part⟩
        | none => none := rfl
    rw [h1, hp]
    rfl
  · have hwf2 : ∀ e ∈ bs1 ++ bs2, entryWF e := by
      intro x hx
      rcases List.mem_append.mp hx with h1 | h2
      · exact hwf x (List.mem_append.mpr (Or.inl h1))
      · exact hwf x (List.mem_append.mpr (Or.inr (List.mem_cons_of_mem e0 h2)))
    have hs1 := structuredEntries_render (bs1 ++ e0 :: bs2) hwf
    have hs2 := structuredEntries_render (bs1 ++ bs2) hwf2
    have hfe : (bs1 ++ e0 :: bs2).filter (fun e => !e.sentence.isEmpty) =
        (bs1 ++ bs2).filter (fun e => !e.sentence.isEmpty) := by
      rw [List.filter_append, List.filter_append, List.filter_cons]
      rw [show (!e0.sentence.isEmpty) = false from by rw [h0]; rfl]
      simp
    have hnonempty : ¬ (bs1 ++ bs2).filter (fun e => !e.sentence.isEmpty) = [] := by
      obtain ⟨x, hx, hxne⟩ := hex
      intro hcon
      have hmem : x ∈ (bs1 ++ bs2).filter (fun e => !e.sentence.isEmpty) :=
        List.mem_filter.mpr ⟨hx, by simp [List.isEmpty_iff, hxne]⟩
      rw [hcon] at hmem
      cases hmem
    have hmk1 : parseStructuredScript (String.mk (renderScript (bs1 ++ e0 :: bs2))) =
        if renderScript (bs1 ++ e0 :: bs2) = [] then []
        else if structuredEntries (truncateAtEndSummary (trimChars
            (renderScript (bs1 ++ e0 :: bs2)))) = [] then
          fallbackEntries (truncateAtEndSummary (trimChars
            (renderScript (bs1 ++ e0 :: bs2))))
        else structuredEntries (truncateAtEndSummary (trimChars
          (renderScript (bs1 ++ e0 :: bs2)))) := rfl
    have hmk2 : parseStructuredScript (String.mk (renderScript (bs1 ++ bs2))) =
        if renderScript (bs1 ++ bs2) = [] then []
        else if structuredEntries (truncateAtEndSummary (trimChars
            (renderScript (bs1 ++ bs2)))) = [] then
          fallbackEntries (truncateAtEndSummary (trimChars
            (renderScript (bs1 ++ bs2))))
        else structuredEntries (truncateAtEndSummary (trimChars
          (renderScript (bs1 ++ bs2)))) := rfl
    rw [hmk1, hmk2, if_neg (renderScript_ne_nil (bs1 ++ e0 :: bs2)),
      if_neg (renderScript_ne_nil (bs1 ++ bs2)), hs1, hs2, hfe,
      if_neg hnonempty, if_neg hnonempty]

theorem parse_drops_empty_sentence_block_witness :
    (∀ e ∈ ([⟨"Hi.".data, none⟩] ++
        (⟨[], some "act".data⟩ : ScriptEntry) :: ([] : List ScriptEntry)), entryWF e) ∧
    (ScriptEntry.mk [] (some "act".data)).sentence = [] ∧
    (∃ e ∈ ([⟨"Hi.".data, none⟩] ++ ([] : List ScriptEntry)), e.sentence ≠ []) ∧
    ((∀ part, findField sentenceLabel part = some [] → extractEntry part = none) ∧
      parseStructuredScript (String.mk (renderScript ([⟨"Hi.".data, none⟩] ++
          (⟨[], some "act".data⟩ : ScriptEntry) :: ([] : List ScriptEntry)))) =
        parseStructuredScript (String.mk (renderScript ([⟨"Hi.".data, none⟩] ++
          ([] : List ScriptEntry))))) :=
  ⟨by decide, rfl, by decide,
    parse_drops_empty_sentence_block [⟨"Hi.".data, none⟩] [] ⟨[], some "act".data⟩
      (by decide) rfl (by decide)⟩

end Confluencer
